import Mathlib

set_option autoImplicit false

/-! Verification of the `RenameTypes` configuration transformer
(`src/core/config/transformer/rename_types.rs`).

The configuration value is an ordered map (`IndexMap`) from type names to
type bodies, plus a schema record with optional root-type names.  We embed
ordered maps as association lists `List (String × α)` and give the exact
`indexmap` crate semantics for the operations the transformer uses:
`contains_key`, `get`/the value returned by `remove`, `insert`
(replace-in-place for an existing key, append for a fresh key) and `remove`
(which in `indexmap` is `swap_remove`: the last entry is moved into the
removed entry's slot). -/

namespace RenameSpec

/-- Modelled from the spec: `ArgInfo` holds `type_of`, a type-name reference
(§3 of the specification; the Rust `Arg` type is outside the provided
sources). -/
structure ArgInfo where
  type_of : String
deriving DecidableEq, Repr

/-- Modelled from the spec: `FieldInfo` holds `type_of` and an ordered map
`args` from argument name to `ArgInfo` (§3; the Rust `Field` type is outside
the provided sources). -/
structure FieldInfo where
  type_of : String
  args : List (String × ArgInfo)
deriving DecidableEq, Repr

/-- Modelled from the spec: `TypeInfo` holds `fields`, an ordered map from
field name to `FieldInfo` (§3; the Rust `Type` is outside the provided
sources). -/
structure TypeInfo where
  fields : List (String × FieldInfo)
deriving DecidableEq, Repr

/-- Modelled from the spec: the schema record holding the optional root-type
names `query`, `mutation` and `subscription` (§3; the Rust `RootSchema` is
outside the provided sources). -/
structure Schema where
  query : Option String
  mutation : Option String
  subscription : Option String
deriving DecidableEq, Repr

/-- Modelled from the spec: a configuration, with `types` an ordered mapping
from type name to `TypeInfo`, and `schema` (§3; the Rust `Config` is outside
the provided sources). -/
structure Config where
  types : List (String × TypeInfo)
  schema : Schema
deriving DecidableEq, Repr

/-- Modelled from the spec: the validation primitive (§4.1), either a
success holding a value or a failure holding an error list (nonempty in
practice).  This is the Rust `Valid` type, outside the provided sources. -/
inductive Valid (α : Type) (ε : Type) where
  | succeed : α → Valid α ε
  | failure : List ε → Valid α ε
deriving DecidableEq, Repr

/-- Keys of an association list, in order. -/
def keysOf {α : Type} (l : List (String × α)) : List String :=
  l.map Prod.fst

/-- Values of an association list, in order. -/
def valsOf {α : Type} (l : List (String × α)) : List α :=
  l.map Prod.snd

/-- `IndexMap::contains_key`. -/
def containsKey {α : Type} : List (String × α) → String → Bool
  | [], _ => false
  | p :: rest, k => if p.1 = k then true else containsKey rest k

/-- Value lookup: the value `IndexMap::get` / `IndexMap::remove` finds for a
key (the unique entry with that key; first entry for a rogue list with
duplicate keys). -/
def getEntry {α : Type} : List (String × α) → String → Option α
  | [], _ => none
  | p :: rest, k => if p.1 = k then some p.2 else getEntry rest k

/-- In-place value replacement for an existing key, keeping the key's
position (the `IndexMap::insert` behaviour on a present key). -/
def replaceVal {α : Type} : List (String × α) → String → α → List (String × α)
  | [], _, _ => []
  | p :: rest, k, v => if p.1 = k then (p.1, v) :: rest else p :: replaceVal rest k v

/-- `IndexMap::insert`: replace in place if the key is present, append at
the end otherwise. -/
def insertEntry {α : Type} (l : List (String × α)) (k : String) (v : α) :
    List (String × α) :=
  if containsKey l k then replaceVal l k v else l ++ [(k, v)]

/-- `IndexMap::remove`, which the `indexmap` crate defines as `swap_remove`:
the removed entry's slot is filled with the map's last entry (the removed
entry's key simply disappears when it is itself last). -/
def swapRemove {α : Type} : List (String × α) → String → List (String × α)
  | [], _ => []
  | p :: rest, k =>
    if p.1 = k then
      match rest.getLast? with
      | none => []
      | some last => last :: rest.dropLast
    else p :: swapRemove rest k

/-- The entries that remain, in order, after a swap-removal at the position
just before `post`: the previous last entry moves into that slot, followed
by what preceded it. -/
def swapTail {α : Type} (post : List (String × α)) : List (String × α) :=
  match post.getLast? with
  | none => []
  | some last => last :: post.dropLast

/-- The error message built by `RenameTypes::transform` for a missing
old-name (`format!` at lines 32-35 of `rename_types.rs`). -/
def errMsg (name : String) : String :=
  "Type '" ++ name ++ "' not found in configuration."

/-- The mutable state threaded through phase 1 of
`RenameTypes::transform`: the configuration's `types` and `schema`, and the
`lookup` map of successfully renamed names. -/
structure RenameState where
  types : List (String × TypeInfo)
  schema : Schema
  lookup : List (String × String)
deriving DecidableEq, Repr

/-- One iteration of the `Valid::from_iter` closure in
`RenameTypes::transform` (lines 30-51): on a missing old-name produce the
error; otherwise remove the old entry, insert its body under the new name,
record the pair in `lookup`, and update the query root (else the mutation
root) when it equals the old name. -/
def renameStep (st : RenameState) (pair : String × String) :
    RenameState × List String :=
  if containsKey st.types pair.1 then
    match getEntry st.types pair.1 with
    | some info =>
      let types1 := insertEntry (swapRemove st.types pair.1) pair.2 info
      let lookup1 := insertEntry st.lookup pair.1 pair.2
      let schema1 :=
        if st.schema.query = some pair.1 then
          { st.schema with query := some pair.2 }
        else if st.schema.mutation = some pair.1 then
          { st.schema with mutation := some pair.2 }
        else st.schema
      ({ types := types1, schema := schema1, lookup := lookup1 }, [])
    | none => (st, [])
  else (st, [errMsg pair.1])

/-- Phase 1 of `RenameTypes::transform`: `Valid::from_iter` over the stored
rename pairs — every pair is processed (no short-circuiting) and the
per-pair error lists are concatenated in input order (spec §4.1). -/
def renamePass : List (String × String) → RenameState → RenameState × List String
  | [], st => (st, [])
  | pair :: rest, st =>
    let r1 := renameStep st pair
    let r2 := renamePass rest r1.1
    (r2.1, r1.2 ++ r2.2)

/-- Phase 2 reference rewrite for one name (lines 56-63): replace the name
when it is a key of the rename lookup, leave it unchanged otherwise. -/
def rewriteRef (lookup : List (String × String)) (s : String) : String :=
  match getEntry lookup s with
  | some n => n
  | none => s

/-- Phase 2 rewrite of one argument's `type_of` (lines 60-63). -/
def rewriteArg (lookup : List (String × String)) (a : ArgInfo) : ArgInfo :=
  { type_of := rewriteRef lookup a.type_of }

/-- Phase 2 rewrite of one field: its own `type_of` and each argument's
(lines 54-64). -/
def rewriteField (lookup : List (String × String)) (f : FieldInfo) : FieldInfo :=
  { type_of := rewriteRef lookup f.type_of
    args := f.args.map (fun p => (p.1, rewriteArg lookup p.2)) }

/-- Phase 2 rewrite of one type body: every field (lines 53-65). -/
def rewriteTypeInfo (lookup : List (String × String)) (t : TypeInfo) : TypeInfo :=
  { fields := t.fields.map (fun p => (p.1, rewriteField lookup p.2)) }

/-- `RenameTypes::transform` (lines 25-70): run phase 1 over the stored
rename mapping; if any errors were recorded the whole transform fails with
the accumulated list, otherwise phase 2 rewrites every field and argument
reference through the lookup and the rewritten configuration is returned. -/
def transform (rename : List (String × String)) (config : Config) :
    Valid Config String :=
  let r := renamePass rename
    { types := config.types, schema := config.schema, lookup := [] }
  if r.2.isEmpty then
    Valid.succeed
      { types := r.1.types.map (fun p => (p.1, rewriteTypeInfo r.1.lookup p.2))
        schema := r.1.schema }
  else
    Valid.failure r.2

/-- `RenameTypes::new` (lines 12-18): collecting the suggested-name pairs
into an `IndexMap` — later entries with a duplicate old-name overwrite
earlier ones. -/
def renameTypesNew (pairs : List (String × String)) : List (String × String) :=
  pairs.foldl (fun acc p => insertEntry acc p.1 p.2) []

/-- The state phase 1 starts from: the input configuration's `types` and
`schema`, and an empty rename lookup (lines 26-27). -/
def initState (config : Config) : RenameState :=
  { types := config.types, schema := config.schema, lookup := [] }

/-- Erase the type-name reference of an argument, keeping everything else;
used to state frame conditions. -/
def scrubArg (a : ArgInfo) : ArgInfo :=
  { a with type_of := "" }

/-- Erase every type-name reference of a field, keeping everything else. -/
def scrubField (f : FieldInfo) : FieldInfo :=
  { type_of := ""
    args := f.args.map (fun p => (p.1, scrubArg p.2)) }

/-- Erase every type-name reference of a type body, keeping everything
else. -/
def scrubTypeInfo (t : TypeInfo) : TypeInfo :=
  { fields := t.fields.map (fun p => (p.1, scrubField p.2)) }

/-- An empty type body, used in the concrete examples below. -/
def tEmpty : TypeInfo := { fields := [] }

/-- A type body whose field `f` has type `A` and one argument `x : A`. -/
def tSelfRef : TypeInfo :=
  { fields := [("f", { type_of := "A", args := [("x", { type_of := "A" })] })] }

/-- Concrete configuration for the chained-rename counterexample on error
reporting: a single type `A` and no schema roots. -/
def cfgChainA : Config :=
  { types := [("A", tEmpty)]
    schema := { query := none, mutation := none, subscription := none } }

/-- Result of renaming `A` to `B` and then `B` to `C` in `cfgChainA`. -/
def cfgChainAOut : Config :=
  { types := [("C", tEmpty)]
    schema := { query := none, mutation := none, subscription := none } }

/-- Concrete configuration for the chained-rename counterexample on
referential closure: a single type `A` whose field and argument reference
`A` itself. -/
def cfgChainRef : Config :=
  { types := [("A", tSelfRef)]
    schema := { query := none, mutation := none, subscription := none } }

/-- Result of renaming `A` to `B` and then `B` to `C` in `cfgChainRef`: the
references are rewritten to `B`, which is no longer a key. -/
def cfgChainRefOut : Config :=
  { types := [("C", { fields := [("f", { type_of := "B",
                                         args := [("x", { type_of := "B" })] })] })]
    schema := { query := none, mutation := none, subscription := none } }

/-- Concrete configuration for the chained-rename counterexample on the
failure path: a single type `X`. -/
def cfgChainX : Config :=
  { types := [("X", tEmpty)]
    schema := { query := none, mutation := none, subscription := none } }

/-- Result of renaming `X` to `Y` and then `Y` to `Z` in `cfgChainX`. -/
def cfgChainXOut : Config :=
  { types := [("Z", tEmpty)]
    schema := { query := none, mutation := none, subscription := none } }

/-- Two types `A`, `B`, used for the order counterexample. -/
def cfgPair : Config :=
  { types := [("A", tEmpty), ("B", tEmpty)]
    schema := { query := none, mutation := none, subscription := none } }

/-- Result of renaming `A` to `C` in `cfgPair`: `B` is swapped into the
first slot and `C` appended. -/
def cfgPairOut : Config :=
  { types := [("B", tEmpty), ("C", tEmpty)]
    schema := { query := none, mutation := none, subscription := none } }

/-- Three types `A`, `B`, `C`, used for the order witness. -/
def cfgTriple : Config :=
  { types := [("A", tEmpty), ("B", tEmpty), ("C", tEmpty)]
    schema := { query := none, mutation := none, subscription := none } }

/-- A configuration whose subscription root names the type `S`. -/
def cfgSub : Config :=
  { types := [("S", tEmpty)]
    schema := { query := none, mutation := none, subscription := some "S" } }

/-- Result of renaming `S` to `T` in `cfgSub`: the subscription root still
says `S`. -/
def cfgSubOut : Config :=
  { types := [("T", tEmpty)]
    schema := { query := none, mutation := none, subscription := some "S" } }

/-- A configuration whose query and mutation roots both name the type `A`,
used for the else-if exclusivity witness. -/
def cfgRoots : Config :=
  { types := [("A", tEmpty)]
    schema := { query := some "A", mutation := some "A", subscription := none } }

/-- A single type `A`, used for the missing-name error witness. -/
def cfgW1 : Config :=
  { types := [("A", tEmpty)]
    schema := { query := none, mutation := none, subscription := none } }

/-- A single type `A`, used for the failure-path witness. -/
def cfgW7 : Config :=
  { types := [("A", tEmpty)]
    schema := { query := none, mutation := none, subscription := none } }

/-- Types `A` and `P`, query root `A`, mutation and subscription roots `P`;
field and argument references to `A` and `P`; used as witness input for the
referential-closure and rewrite claims. -/
def cfgRich : Config :=
  { types := [("A", { fields := [("f", { type_of := "A",
                                         args := [("x", { type_of := "P" })] })] }),
              ("P", tEmpty)]
    schema := { query := some "A", mutation := some "P", subscription := some "P" } }

/-- Result of renaming `A` to `B` in `cfgRich`. -/
def cfgRichOut : Config :=
  { types := [("P", tEmpty),
              ("B", { fields := [("f", { type_of := "B",
                                         args := [("x", { type_of := "P" })] })] })]
    schema := { query := some "B", mutation := some "P", subscription := some "P" } }

/-- Types `A` and `B`, used for the collision witness: renaming `A` to `B`
overwrites the body stored under `B`. -/
def cfgCollide : Config :=
  { types := [("A", tSelfRef), ("B", tEmpty)]
    schema := { query := none, mutation := none, subscription := none } }

/-- Types `A` and `B`, used for the shared-new-name witness: both renamed
to the fresh name `N`. -/
def cfgShared : Config :=
  { types := [("A", tSelfRef), ("B", tEmpty)]
    schema := { query := none, mutation := none, subscription := none } }

/-- A single type `A` with query root `A`, used for the chained-rename
counterexample on root updates. -/
def cfgChainQ : Config :=
  { types := [("A", tEmpty)]
    schema := { query := some "A", mutation := none, subscription := none } }

/-- Result of renaming `A` to `B` and then `B` to `C` in `cfgChainQ`: the
query root follows the chain to `C`. -/
def cfgChainQOut : Config :=
  { types := [("C", tEmpty)]
    schema := { query := some "C", mutation := none, subscription := none } }

/-- Result of renaming `A` to `B` in `cfgRoots` (query and mutation both
`A`): the query root is updated, the mutation root is not. -/
def cfgRootsOut : Config :=
  { types := [("B", tEmpty)]
    schema := { query := some "B", mutation := some "A", subscription := none } }

/-- Result of the mapping `B → C, A → B` on `cfgCollide`: `B` was renamed
away before the insert under `B` ran, so both bodies survive. -/
def cfgCollideSwapOut : Config :=
  { types := [("C", tEmpty),
              ("B", { fields := [("f", { type_of := "B",
                                         args := [("x", { type_of := "B" })] })] })]
    schema := { query := none, mutation := none, subscription := none } }

/-! Basic facts about the ordered-map operations. -/

section MapLemmas

variable {α : Type}

@[simp] theorem keysOf_nil : keysOf ([] : List (String × α)) = [] := rfl

@[simp] theorem keysOf_cons (p : String × α) (l : List (String × α)) :
    keysOf (p :: l) = p.1 :: keysOf l := rfl

@[simp] theorem keysOf_append (l l' : List (String × α)) :
    keysOf (l ++ l') = keysOf l ++ keysOf l' := by
  simp [keysOf]

@[simp] theorem valsOf_nil : valsOf ([] : List (String × α)) = [] := rfl

@[simp] theorem valsOf_cons (p : String × α) (l : List (String × α)) :
    valsOf (p :: l) = p.2 :: valsOf l := rfl

theorem mem_keysOf_of_mem {l : List (String × α)} {p : String × α} (h : p ∈ l) :
    p.1 ∈ keysOf l := List.mem_map_of_mem Prod.fst h

theorem mem_valsOf_of_mem {l : List (String × α)} {p : String × α} (h : p ∈ l) :
    p.2 ∈ valsOf l := List.mem_map_of_mem Prod.snd h

theorem containsKey_iff (l : List (String × α)) (k : String) :
    containsKey l k = true ↔ k ∈ keysOf l := by
  induction l with
  | nil => simp [containsKey]
  | cons p rest ih =>
    simp only [containsKey, keysOf_cons, List.mem_cons]
    by_cases h : p.1 = k
    · simp [h]
    · rw [if_neg h, ih]
      have : ¬ k = p.1 := fun hh => h hh.symm
      simp [this]

theorem containsKey_eq_false_iff (l : List (String × α)) (k : String) :
    containsKey l k = false ↔ k ∉ keysOf l := by
  rw [← containsKey_iff]
  cases containsKey l k <;> simp

theorem getEntry_eq_none_iff (l : List (String × α)) (k : String) :
    getEntry l k = none ↔ k ∉ keysOf l := by
  induction l with
  | nil => simp [getEntry]
  | cons p rest ih =>
    simp only [getEntry, keysOf_cons, List.mem_cons]
    by_cases h : p.1 = k
    · simp [h]
    · rw [if_neg h, ih]
      have : ¬ k = p.1 := fun hh => h hh.symm
      simp [this]

theorem getEntry_isSome_of_containsKey {l : List (String × α)} {k : String}
    (h : containsKey l k = true) : ∃ v, getEntry l k = some v := by
  cases hv : getEntry l k with
  | some v => exact ⟨v, rfl⟩
  | none =>
    rw [getEntry_eq_none_iff] at hv
    rw [containsKey_iff] at h
    exact absurd h hv

theorem mem_of_getEntry {l : List (String × α)} {k : String} {v : α}
    (h : getEntry l k = some v) : (k, v) ∈ l := by
  induction l with
  | nil => simp [getEntry] at h
  | cons p rest ih =>
    by_cases hp : p.1 = k
    · rw [getEntry, if_pos hp] at h
      have : p = (k, v) := by
        cases p
        cases h
        cases hp
        rfl
      exact this ▸ List.mem_cons_self _ _
    · rw [getEntry, if_neg hp] at h
      exact List.mem_cons_of_mem _ (ih h)

theorem getEntry_of_mem {l : List (String × α)} {k : String} {v : α}
    (hN : (keysOf l).Nodup) (h : (k, v) ∈ l) : getEntry l k = some v := by
  induction l with
  | nil => simp at h
  | cons p rest ih =>
    rw [keysOf_cons, List.nodup_cons] at hN
    rcases List.mem_cons.mp h with h | h
    · rw [getEntry, ← h]
      simp
    · have hk : k ∈ keysOf rest := mem_keysOf_of_mem h
      have hp : ¬ p.1 = k := fun hh => hN.1 (hh ▸ hk)
      rw [getEntry, if_neg hp]
      exact ih hN.2 h

theorem keysOf_replaceVal (l : List (String × α)) (k : String) (v : α) :
    keysOf (replaceVal l k v) = keysOf l := by
  induction l with
  | nil => rfl
  | cons p rest ih =>
    by_cases h : p.1 = k
    · rw [replaceVal, if_pos h]
      simp
    · rw [replaceVal, if_neg h, keysOf_cons, keysOf_cons, ih]

theorem mem_replaceVal {l : List (String × α)} {k m : String} {v w : α}
    (h : (m, w) ∈ replaceVal l k v) : (m = k ∧ w = v) ∨ (m, w) ∈ l := by
  induction l with
  | nil => simp [replaceVal] at h
  | cons p rest ih =>
    by_cases hp : p.1 = k
    · rw [replaceVal, if_pos hp] at h
      rcases List.mem_cons.mp h with h | h
      · left
        have h1 : m = p.1 ∧ w = v := by
          cases h
          exact ⟨rfl, rfl⟩
        exact ⟨h1.1.trans hp, h1.2⟩
      · exact Or.inr (List.mem_cons_of_mem _ h)
    · rw [replaceVal, if_neg hp] at h
      rcases List.mem_cons.mp h with h | h
      · exact Or.inr (h ▸ List.mem_cons_self _ _)
      · rcases ih h with h | h
        · exact Or.inl h
        · exact Or.inr (List.mem_cons_of_mem _ h)

theorem getEntry_replaceVal_self {l : List (String × α)} {k : String} (v : α)
    (h : containsKey l k = true) : getEntry (replaceVal l k v) k = some v := by
  induction l with
  | nil => simp [containsKey] at h
  | cons p rest ih =>
    by_cases hp : p.1 = k
    · rw [replaceVal, if_pos hp, getEntry, if_pos hp]
    · rw [containsKey, if_neg hp] at h
      rw [replaceVal, if_neg hp, getEntry, if_neg hp]
      exact ih h

theorem getEntry_replaceVal_ne {l : List (String × α)} {k m : String} (v : α)
    (h : m ≠ k) : getEntry (replaceVal l k v) m = getEntry l m := by
  induction l with
  | nil => rfl
  | cons p rest ih =>
    by_cases hp : p.1 = k
    · have hpm : ¬ p.1 = m := fun hh => h (hh.symm.trans hp)
      rw [replaceVal, if_pos hp, getEntry, if_neg hpm, getEntry, if_neg hpm]
    · rw [replaceVal, if_neg hp, getEntry, getEntry, ih]

theorem getEntry_append (l l' : List (String × α)) (m : String) :
    getEntry (l ++ l') m =
      if m ∈ keysOf l then getEntry l m else getEntry l' m := by
  induction l with
  | nil => simp [getEntry]
  | cons p rest ih =>
    by_cases hp : p.1 = m
    · rw [List.cons_append, getEntry, if_pos hp, getEntry, if_pos hp, if_pos]
      rw [keysOf_cons, hp]
      exact List.mem_cons_self _ _
    · rw [List.cons_append, getEntry, if_neg hp, getEntry, if_neg hp, ih]
      have hiff : m ∈ keysOf (p :: rest) ↔ m ∈ keysOf rest := by
        simp only [keysOf_cons, List.mem_cons]
        have : ¬ m = p.1 := fun hh => hp hh.symm
        simp [this]
      by_cases hm : m ∈ keysOf rest
      · rw [if_pos hm, if_pos (hiff.mpr hm)]
      · rw [if_neg hm, if_neg (fun hh => hm (hiff.mp hh))]

theorem mem_keysOf_insertEntry (l : List (String × α)) (k m : String) (v : α) :
    m ∈ keysOf (insertEntry l k v) ↔ m = k ∨ m ∈ keysOf l := by
  unfold insertEntry
  by_cases h : containsKey l k = true
  · rw [if_pos h, keysOf_replaceVal]
    rw [containsKey_iff] at h
    constructor
    · exact Or.inr
    · rintro (rfl | hm)
      · exact h
      · exact hm
  · rw [if_neg h]
    simp [or_comm]

theorem keysOf_insertEntry_nodup {l : List (String × α)} {k : String} {v : α}
    (h : (keysOf l).Nodup) : (keysOf (insertEntry l k v)).Nodup := by
  unfold insertEntry
  by_cases hc : containsKey l k = true
  · rwa [if_pos hc, keysOf_replaceVal]
  · rw [if_neg hc]
    rw [Bool.not_eq_true, containsKey_eq_false_iff] at hc
    rw [keysOf_append, keysOf_cons, keysOf_nil]
    exact List.Nodup.append h (List.nodup_singleton k) (by simpa using hc)

theorem getEntry_insertEntry_self (l : List (String × α)) (k : String) (v : α) :
    getEntry (insertEntry l k v) k = some v := by
  unfold insertEntry
  by_cases h : containsKey l k = true
  · rw [if_pos h]
    exact getEntry_replaceVal_self v h
  · rw [if_neg h, getEntry_append]
    rw [Bool.not_eq_true, containsKey_eq_false_iff] at h
    rw [if_neg h, getEntry, if_pos rfl]

theorem getEntry_insertEntry_ne {l : List (String × α)} {k m : String} (v : α)
    (h : m ≠ k) : getEntry (insertEntry l k v) m = getEntry l m := by
  unfold insertEntry
  by_cases hc : containsKey l k = true
  · rw [if_pos hc]
    exact getEntry_replaceVal_ne v h
  · rw [if_neg hc, getEntry_append]
    by_cases hm : m ∈ keysOf l
    · rw [if_pos hm]
    · rw [if_neg hm, getEntry, if_neg (fun hh : k = m => h hh.symm), getEntry,
        (getEntry_eq_none_iff l m).mpr hm]

theorem mem_insertEntry {l : List (String × α)} {k m : String} {v w : α}
    (h : (m, w) ∈ insertEntry l k v) : (m = k ∧ w = v) ∨ (m, w) ∈ l := by
  unfold insertEntry at h
  by_cases hc : containsKey l k = true
  · rw [if_pos hc] at h
    exact mem_replaceVal h
  · rw [if_neg hc] at h
    rcases List.mem_append.mp h with h | h
    · exact Or.inr h
    · left
      simp at h
      exact ⟨h.1, h.2⟩

end MapLemmas

/-! Facts about `swapRemove`, indexmap's `remove`. -/

section SwapRemoveLemmas

variable {α : Type}

theorem swapRemove_of_not_mem {l : List (String × α)} {k : String}
    (h : k ∉ keysOf l) : swapRemove l k = l := by
  induction l with
  | nil => rfl
  | cons p rest ih =>
    rw [keysOf_cons, List.mem_cons] at h
    push_neg at h
    rw [swapRemove, if_neg (fun hh => h.1 hh.symm), ih h.2]

theorem mem_of_mem_swapRemove {l : List (String × α)} {k : String} {x : String × α}
    (h : x ∈ swapRemove l k) : x ∈ l := by
  induction l with
  | nil => simpa [swapRemove] using h
  | cons p rest ih =>
    by_cases hp : p.1 = k
    · rw [swapRemove, if_pos hp] at h
      cases hl : rest.getLast? with
      | none =>
        rw [hl] at h
        simp at h
      | some last =>
        rw [hl] at h
        rcases List.mem_cons.mp h with h | h
        · refine List.mem_cons_of_mem _ ?_
          rw [h]
          exact List.mem_of_mem_getLast? (by rw [hl]; rfl)
        · exact List.mem_cons_of_mem _ ((List.dropLast_sublist rest).subset h)
    · rw [swapRemove, if_neg hp] at h
      rcases List.mem_cons.mp h with h | h
      · exact h ▸ List.mem_cons_self _ _
      · exact List.mem_cons_of_mem _ (ih h)

theorem swapRemove_eq_of_split {pre post : List (String × α)} {k : String} {v : α}
    (hpre : k ∉ keysOf pre) :
    swapRemove (pre ++ (k, v) :: post) k = pre ++ swapTail post := by
  induction pre with
  | nil => simp [swapRemove, swapTail]
  | cons p pre ih =>
    rw [keysOf_cons, List.mem_cons] at hpre
    push_neg at hpre
    rw [List.cons_append, swapRemove, if_neg (fun hh => hpre.1 hh.symm), ih hpre.2,
      List.cons_append]

theorem exists_split_of_mem_keysOf {l : List (String × α)} {k : String}
    (h : k ∈ keysOf l) :
    ∃ pre v post, l = pre ++ (k, v) :: post ∧ k ∉ keysOf pre := by
  induction l with
  | nil => simp at h
  | cons p rest ih =>
    by_cases hp : p.1 = k
    · refine ⟨[], p.2, rest, ?_, by simp⟩
      cases p
      cases hp
      rfl
    · have hk : k ∈ keysOf rest := by
        rw [keysOf_cons, List.mem_cons] at h
        rcases h with h | h
        · exact absurd h.symm hp
        · exact h
      rcases ih hk with ⟨pre, v, post, heq, hpre⟩
      refine ⟨p :: pre, v, post, by rw [heq, List.cons_append], ?_⟩
      rw [keysOf_cons, List.mem_cons]
      push_neg
      exact ⟨fun hh => hp hh.symm, hpre⟩

theorem swapRemove_perm_of_split {pre post : List (String × α)} {k : String} {v : α}
    (hpre : k ∉ keysOf pre) :
    List.Perm (swapRemove (pre ++ (k, v) :: post) k) (pre ++ post) := by
  rw [swapRemove_eq_of_split hpre]
  refine List.Perm.append_left pre ?_
  unfold swapTail
  cases hl : post.getLast? with
  | none =>
    rw [List.getLast?_eq_none_iff.mp hl]
  | some last =>
    rcases List.getLast?_eq_some_iff.mp hl with ⟨ys, rfl⟩
    rw [List.dropLast_concat]
    exact (List.perm_append_singleton last ys).symm

theorem swapRemove_perm {l : List (String × α)} {k : String} {v : α}
    (hN : (keysOf l).Nodup) (h : getEntry l k = some v) :
    ∃ pre post, l = pre ++ (k, v) :: post ∧ k ∉ keysOf pre ∧
      List.Perm (swapRemove l k) (pre ++ post) ∧ k ∉ keysOf (pre ++ post) := by
  have hk : k ∈ keysOf l := by
    by_contra hk
    rw [← getEntry_eq_none_iff] at hk
    rw [hk] at h
    cases h
  rcases exists_split_of_mem_keysOf hk with ⟨pre, w, post, heq, hpre⟩
  have hw : w = v := by
    have : getEntry (pre ++ (k, w) :: post) k = some w := by
      rw [getEntry_append, if_neg hpre, getEntry, if_pos rfl]
    rw [← heq, h] at this
    cases this
    rfl
  subst hw
  refine ⟨pre, post, heq, hpre, heq ▸ swapRemove_perm_of_split hpre, ?_⟩
  have hmid : (k :: (keysOf pre ++ keysOf post)).Nodup := by
    rw [← List.nodup_middle]
    have : keysOf (pre ++ (k, w) :: post) = keysOf pre ++ k :: keysOf post := by
      rw [keysOf_append, keysOf_cons]
    rw [heq, this] at hN
    exact hN
  rw [keysOf_append]
  exact (List.nodup_cons.mp hmid).1

theorem keysOf_swapRemove_nodup {l : List (String × α)} {k : String}
    (hN : (keysOf l).Nodup) : (keysOf (swapRemove l k)).Nodup := by
  by_cases hk : k ∈ keysOf l
  · rcases getEntry_isSome_of_containsKey ((containsKey_iff l k).mpr hk) with ⟨v, hv⟩
    rcases swapRemove_perm hN hv with ⟨pre, post, heq, hpre, hperm, hout⟩
    refine ((hperm.map Prod.fst).nodup_iff).mpr ?_
    have : (keysOf (pre ++ (k, v) :: post)).Nodup := heq ▸ hN
    rw [keysOf_append, keysOf_cons] at this
    have := List.nodup_middle.mp this
    rw [List.nodup_cons] at this
    simpa [keysOf] using this.2
  · rw [swapRemove_of_not_mem hk]
    exact hN

theorem mem_keysOf_swapRemove {l : List (String × α)} {k m : String} {v : α}
    (hN : (keysOf l).Nodup) (h : getEntry l k = some v) :
    m ∈ keysOf (swapRemove l k) ↔ m ∈ keysOf l ∧ m ≠ k := by
  rcases swapRemove_perm hN h with ⟨pre, post, heq, hpre, hperm, hout⟩
  have hmem : m ∈ keysOf (swapRemove l k) ↔ m ∈ keysOf (pre ++ post) := by
    constructor
    · intro hm
      rcases List.mem_map.mp hm with ⟨p, hp, hpm⟩
      exact hpm ▸ mem_keysOf_of_mem (hperm.mem_iff.mp hp)
    · intro hm
      rcases List.mem_map.mp hm with ⟨p, hp, hpm⟩
      exact hpm ▸ mem_keysOf_of_mem (hperm.mem_iff.mpr hp)
  rw [hmem, heq]
  rw [keysOf_append, keysOf_append, keysOf_cons]
  constructor
  · intro hm
    have hmk : m ≠ k := fun hh => (hh ▸ hout) (by rwa [keysOf_append])
    rcases List.mem_append.mp hm with hm | hm
    · exact ⟨List.mem_append.mpr (Or.inl hm), hmk⟩
    · exact ⟨List.mem_append.mpr (Or.inr (List.mem_cons_of_mem _ hm)), hmk⟩
  · rintro ⟨hm, hmk⟩
    rcases List.mem_append.mp hm with hm | hm
    · exact List.mem_append.mpr (Or.inl hm)
    · rcases List.mem_cons.mp hm with hm | hm
      · exact absurd hm hmk
      · exact List.mem_append.mpr (Or.inr hm)

theorem getEntry_swapRemove_ne {l : List (String × α)} {k m : String} {v : α}
    (hN : (keysOf l).Nodup) (h : getEntry l k = some v) (hmk : m ≠ k) :
    getEntry (swapRemove l k) m = getEntry l m := by
  cases hm : getEntry l m with
  | none =>
    rw [getEntry_eq_none_iff] at hm
    rw [getEntry_eq_none_iff, mem_keysOf_swapRemove hN h]
    exact fun hh => hm hh.1
  | some w =>
    have hmem : (m, w) ∈ l := mem_of_getEntry hm
    rcases swapRemove_perm hN h with ⟨pre, post, heq, hpre, hperm, hout⟩
    have : (m, w) ∈ pre ++ post := by
      rw [heq] at hmem
      rcases List.mem_append.mp hmem with hh | hh
      · exact List.mem_append.mpr (Or.inl hh)
      · rcases List.mem_cons.mp hh with hh | hh
        · cases hh
          exact absurd rfl hmk
        · exact List.mem_append.mpr (Or.inr hh)
    exact getEntry_of_mem (keysOf_swapRemove_nodup hN) (hperm.mem_iff.mpr this)

end SwapRemoveLemmas

/-! Facts about one phase-1 iteration (`renameStep`). -/

section StepLemmas

theorem insertEntry_of_not_containsKey {α : Type} {l : List (String × α)}
    {k : String} (v : α) (h : containsKey l k = false) :
    insertEntry l k v = l ++ [(k, v)] := by
  unfold insertEntry
  rw [h]
  rfl

theorem valsOf_insertEntry_subset {α : Type} {l : List (String × α)}
    {k : String} {v w : α} (h : w ∈ valsOf (insertEntry l k v)) :
    w ∈ valsOf l ∨ w = v := by
  rcases List.mem_map.mp h with ⟨pr, hpr, hw⟩
  rcases mem_insertEntry hpr with ⟨_, h2⟩ | hmem
  · exact Or.inr (hw ▸ h2 ▸ rfl)
  · exact Or.inl (hw ▸ mem_valsOf_of_mem hmem)

theorem valsOf_swapRemove_subset {α : Type} {l : List (String × α)}
    {k : String} {w : α} (h : w ∈ valsOf (swapRemove l k)) : w ∈ valsOf l := by
  rcases List.mem_map.mp h with ⟨pr, hpr, hw⟩
  exact hw ▸ mem_valsOf_of_mem (mem_of_mem_swapRemove hpr)

theorem renameStep_of_missing {st : RenameState} {pair : String × String}
    (h : containsKey st.types pair.1 = false) :
    renameStep st pair = (st, [errMsg pair.1]) := by
  unfold renameStep
  rw [h]
  rfl

theorem renameStep_of_containsKey {st : RenameState} {pair : String × String}
    (h : containsKey st.types pair.1 = true) :
    ∃ info, getEntry st.types pair.1 = some info ∧
      renameStep st pair =
        ({ types := insertEntry (swapRemove st.types pair.1) pair.2 info
           schema :=
             if st.schema.query = some pair.1 then
               { st.schema with query := some pair.2 }
             else if st.schema.mutation = some pair.1 then
               { st.schema with mutation := some pair.2 }
             else st.schema
           lookup := insertEntry st.lookup pair.1 pair.2 }, []) := by
  rcases getEntry_isSome_of_containsKey h with ⟨info, hinfo⟩
  refine ⟨info, hinfo, ?_⟩
  unfold renameStep
  rw [h, hinfo]
  rfl

theorem renameStep_sub (st : RenameState) (pair : String × String) :
    ((renameStep st pair).1).schema.subscription = st.schema.subscription := by
  cases hc : containsKey st.types pair.1 with
  | false => rw [renameStep_of_missing hc]
  | true =>
    rcases renameStep_of_containsKey hc with ⟨info, _, hstep⟩
    rw [hstep]
    by_cases h1 : st.schema.query = some pair.1
    · simp [h1]
    · by_cases h2 : st.schema.mutation = some pair.1 <;> simp [h1, h2]

end StepLemmas

/-! Facts about phase 1 as a whole (`renamePass`). -/

section PassLemmas

theorem renamePass_nil (st : RenameState) : renamePass [] st = (st, []) := rfl

theorem renamePass_cons (pair : String × String) (rest : List (String × String))
    (st : RenameState) :
    renamePass (pair :: rest) st =
      ((renamePass rest (renameStep st pair).1).1,
        (renameStep st pair).2 ++ (renamePass rest (renameStep st pair).1).2) := rfl

theorem renamePass_sub (R : List (String × String)) (st : RenameState) :
    ((renamePass R st).1).schema.subscription = st.schema.subscription := by
  induction R generalizing st with
  | nil => rfl
  | cons pair rest ih =>
    rw [renamePass_cons]
    exact (ih (renameStep st pair).1).trans (renameStep_sub st pair)

theorem mem_keysOf_stepTypes {types : List (String × TypeInfo)} {o n : String}
    {info : TypeInfo} (hT : (keysOf types).Nodup)
    (hinfo : getEntry types o = some info) (m : String) :
    m ∈ keysOf (insertEntry (swapRemove types o) n info) ↔
      m = n ∨ (m ∈ keysOf types ∧ m ≠ o) := by
  rw [mem_keysOf_insertEntry, mem_keysOf_swapRemove hT hinfo]

theorem containsKey_stepTypes_eq {types : List (String × TypeInfo)} {o n : String}
    {info : TypeInfo} (hT : (keysOf types).Nodup)
    (hinfo : getEntry types o = some info) {m : String}
    (hm1 : m ≠ o) (hm2 : m ≠ n) :
    containsKey (insertEntry (swapRemove types o) n info) m =
      containsKey types m := by
  cases hb : containsKey types m with
  | true =>
    rw [containsKey_iff] at hb ⊢
    rw [mem_keysOf_stepTypes hT hinfo]
    exact Or.inr ⟨hb, hm1⟩
  | false =>
    rw [containsKey_eq_false_iff] at hb ⊢
    rw [mem_keysOf_stepTypes hT hinfo]
    rintro (rfl | ⟨hm, _⟩)
    · exact hm2 rfl
    · exact hb hm

theorem renamePass_errors (R : List (String × String)) (st : RenameState)
    (hT : (keysOf st.types).Nodup)
    (hR : (R.map Prod.fst).Nodup)
    (hC : R.Pairwise (fun p q => p.2 ≠ q.1)) :
    (renamePass R st).2 =
      (R.filter (fun p => !(containsKey st.types p.1))).map (fun p => errMsg p.1) := by
  induction R generalizing st with
  | nil => rfl
  | cons pair rest ih =>
    rw [renamePass_cons]
    rw [List.map_cons, List.nodup_cons] at hR
    rw [List.pairwise_cons] at hC
    cases hc : containsKey st.types pair.1 with
    | false =>
      rw [renameStep_of_missing hc]
      dsimp only
      rw [ih st hT hR.2 hC.2, List.filter_cons_of_pos (by simp [hc]), List.map_cons]
      rfl
    | true =>
      rcases renameStep_of_containsKey hc with ⟨info, hinfo, hstep⟩
      rw [hstep]
      dsimp only
      rw [List.nil_append]
      have hT1 : (keysOf (insertEntry (swapRemove st.types pair.1) pair.2 info)).Nodup :=
        keysOf_insertEntry_nodup (keysOf_swapRemove_nodup hT)
      rw [ih _ hT1 hR.2 hC.2, List.filter_cons_of_neg (by simp [hc])]
      congr 1
      apply List.filter_congr
      intro q hq
      have h1 : q.1 ≠ pair.1 := fun hh => hR.1 (hh ▸ List.mem_map_of_mem Prod.fst hq)
      have h2 : q.1 ≠ pair.2 := fun hh => hC.1 q hq hh.symm
      rw [containsKey_stepTypes_eq hT hinfo h1 h2]

theorem renamePass_success_state (R : List (String × String)) (st : RenameState)
    (hT : (keysOf st.types).Nodup)
    (hR : (R.map Prod.fst).Nodup)
    (hC : R.Pairwise (fun p q => p.2 ≠ q.1))
    (hL : ∀ q ∈ R, q.1 ∉ keysOf st.lookup)
    (hE : (renamePass R st).2 = []) :
    (keysOf (renamePass R st).1.types).Nodup ∧
    (renamePass R st).1.lookup = st.lookup ++ R ∧
    (∀ m, m ∈ keysOf (renamePass R st).1.types ↔
      (m ∈ keysOf st.types ∧ m ∉ R.map Prod.fst) ∨ m ∈ R.map Prod.snd) ∧
    (∀ v, v ∈ valsOf (renamePass R st).1.types → v ∈ valsOf st.types) := by
  induction R generalizing st with
  | nil =>
    rw [renamePass_nil]
    exact ⟨hT, by simp, fun m => by simp, fun v hv => hv⟩
  | cons pair rest ih =>
    rw [renamePass_cons] at hE ⊢
    dsimp only at hE ⊢
    rcases List.append_eq_nil.mp hE with ⟨h1, h2⟩
    rw [List.map_cons, List.nodup_cons] at hR
    rw [List.pairwise_cons] at hC
    have hc : containsKey st.types pair.1 = true := by
      cases hcc : containsKey st.types pair.1 with
      | true => rfl
      | false =>
        rw [renameStep_of_missing hcc] at h1
        simp at h1
    rcases renameStep_of_containsKey hc with ⟨info, hinfo, hstep⟩
    rw [hstep] at h2 ⊢
    dsimp only at h2 ⊢
    have hT1 : (keysOf (insertEntry (swapRemove st.types pair.1) pair.2 info)).Nodup :=
      keysOf_insertEntry_nodup (keysOf_swapRemove_nodup hT)
    have hLpair : containsKey st.lookup pair.1 = false := by
      rw [containsKey_eq_false_iff]
      exact hL pair (List.mem_cons_self _ _)
    have hlook : insertEntry st.lookup pair.1 pair.2 = st.lookup ++ [pair] := by
      rw [insertEntry_of_not_containsKey _ hLpair]
    have hL1 : ∀ q ∈ rest, q.1 ∉ keysOf (insertEntry st.lookup pair.1 pair.2) := by
      intro q hq
      rw [hlook, keysOf_append, keysOf_cons, keysOf_nil, List.mem_append]
      rintro (hh | hh)
      · exact hL q (List.mem_cons_of_mem _ hq) hh
      · rcases List.mem_cons.mp hh with hh | hh
        · exact hR.1 (hh ▸ List.mem_map_of_mem Prod.fst hq)
        · simp at hh
    rcases ih _ hT1 hR.2 hC.2 hL1 h2 with ⟨ihN, ihL, ihK, ihV⟩
    refine ⟨ihN, ?_, ?_, ?_⟩
    · rw [ihL, hlook, List.append_assoc, List.singleton_append]
    · intro m
      rw [ihK m, mem_keysOf_stepTypes hT hinfo]
      have hns : pair.2 ∉ rest.map Prod.fst := by
        intro hh
        rcases List.mem_map.mp hh with ⟨q, hq, hq2⟩
        exact hC.1 q hq hq2.symm
      rw [List.map_cons, List.map_cons, List.mem_cons, List.mem_cons]
      constructor
      · rintro (⟨(rfl | ⟨hm, hmo⟩), hrest⟩ | hnews)
        · exact Or.inr (Or.inl rfl)
        · exact Or.inl ⟨hm, by
            rintro (hh | hh)
            · exact hmo hh
            · exact hrest hh⟩
        · exact Or.inr (Or.inr hnews)
      · rintro (⟨hm, hrest⟩ | (rfl | hnews))
        · refine Or.inl ⟨Or.inr ⟨hm, fun hh => hrest (Or.inl hh)⟩, fun hh => hrest (Or.inr hh)⟩
        · exact Or.inl ⟨Or.inl rfl, hns⟩
        · exact Or.inr hnews
    · intro v hv
      rcases valsOf_insertEntry_subset (ihV v hv) with hh | hh
      · exact valsOf_swapRemove_subset hh
      · exact hh ▸ mem_valsOf_of_mem (mem_of_getEntry hinfo)

theorem renamePass_roots (R : List (String × String)) (st : RenameState)
    (hT : (keysOf st.types).Nodup)
    (hC : R.Pairwise (fun p q => p.2 ≠ q.1))
    (hq : ∀ s, st.schema.query = some s → s ∈ keysOf st.types)
    (hm : ∀ s, st.schema.mutation = some s → s ∈ keysOf st.types)
    (hqm : ∀ p ∈ R, ¬(st.schema.query = some p.1 ∧ st.schema.mutation = some p.1))
    (hE : (renamePass R st).2 = []) :
    (∀ s, (renamePass R st).1.schema.query = some s →
      s ∈ keysOf (renamePass R st).1.types) ∧
    (∀ s, (renamePass R st).1.schema.mutation = some s →
      s ∈ keysOf (renamePass R st).1.types) := by
  induction R generalizing st with
  | nil =>
    rw [renamePass_nil]
    exact ⟨hq, hm⟩
  | cons pair rest ih =>
    rw [renamePass_cons] at hE ⊢
    dsimp only at hE ⊢
    rcases List.append_eq_nil.mp hE with ⟨h1, h2⟩
    rw [List.pairwise_cons] at hC
    have hc : containsKey st.types pair.1 = true := by
      cases hcc : containsKey st.types pair.1 with
      | true => rfl
      | false =>
        rw [renameStep_of_missing hcc] at h1
        simp at h1
    rcases renameStep_of_containsKey hc with ⟨info, hinfo, hstep⟩
    rw [hstep] at h2 ⊢
    dsimp only at h2 ⊢
    have hT1 : (keysOf (insertEntry (swapRemove st.types pair.1) pair.2 info)).Nodup :=
      keysOf_insertEntry_nodup (keysOf_swapRemove_nodup hT)
    have hkeys := mem_keysOf_stepTypes (n := pair.2) hT hinfo
    by_cases cq : st.schema.query = some pair.1
    · rw [if_pos cq] at h2 ⊢
      refine ih _ hT1 hC.2 ?_ ?_ ?_ h2
      · intro s hs
        cases hs
        rw [hkeys]
        exact Or.inl rfl
      · intro s hs
        simp only at hs
        have hsk := hm s hs
        rw [hkeys]
        refine Or.inr ⟨hsk, ?_⟩
        rintro rfl
        exact hqm pair (List.mem_cons_self _ _) ⟨cq, hs⟩
      · intro q hqmem
        simp only
        rintro ⟨hh1, _⟩
        exact hC.1 q hqmem (Option.some.inj hh1)
    · rw [if_neg cq] at h2 ⊢
      by_cases cm : st.schema.mutation = some pair.1
      · rw [if_pos cm] at h2 ⊢
        refine ih _ hT1 hC.2 ?_ ?_ ?_ h2
        · intro s hs
          simp only at hs
          have hsk := hq s hs
          rw [hkeys]
          refine Or.inr ⟨hsk, ?_⟩
          rintro rfl
          exact cq hs
        · intro s hs
          cases hs
          rw [hkeys]
          exact Or.inl rfl
        · intro q hqmem
          simp only
          rintro ⟨_, hh2⟩
          exact hC.1 q hqmem (Option.some.inj hh2)
      · rw [if_neg cm] at h2 ⊢
        refine ih _ hT1 hC.2 ?_ ?_ ?_ h2
        · intro s hs
          have hsk := hq s hs
          rw [hkeys]
          refine Or.inr ⟨hsk, ?_⟩
          rintro rfl
          exact cq hs
        · intro s hs
          have hsk := hm s hs
          rw [hkeys]
          refine Or.inr ⟨hsk, ?_⟩
          rintro rfl
          exact cm hs
        · intro q hqmem
          exact hqm q (List.mem_cons_of_mem _ hqmem)

end PassLemmas

/-! Unfolding the two-phase structure of `transform`. -/

section TransformLemmas

theorem transform_eq_ite (R : List (String × String)) (cfg : Config) :
    transform R cfg =
      if ((renamePass R (initState cfg)).2).isEmpty then
        Valid.succeed
          { types := ((renamePass R (initState cfg)).1.types).map
              (fun p => (p.1, rewriteTypeInfo ((renamePass R (initState cfg)).1.lookup) p.2))
            schema := (renamePass R (initState cfg)).1.schema }
      else Valid.failure (renamePass R (initState cfg)).2 := rfl

theorem transform_of_errs_nil {R : List (String × String)} {cfg : Config}
    (h : (renamePass R (initState cfg)).2 = []) :
    transform R cfg = Valid.succeed
      { types := ((renamePass R (initState cfg)).1.types).map
          (fun p => (p.1, rewriteTypeInfo ((renamePass R (initState cfg)).1.lookup) p.2))
        schema := (renamePass R (initState cfg)).1.schema } := by
  rw [transform_eq_ite, if_pos (List.isEmpty_iff.mpr h)]

theorem transform_of_errs_ne {R : List (String × String)} {cfg : Config}
    (h : (renamePass R (initState cfg)).2 ≠ []) :
    transform R cfg = Valid.failure (renamePass R (initState cfg)).2 := by
  rw [transform_eq_ite, if_neg (fun hh => h (List.isEmpty_iff.mp hh))]

theorem transform_succeed_inv {R : List (String × String)} {cfg cfg' : Config}
    (h : transform R cfg = Valid.succeed cfg') :
    (renamePass R (initState cfg)).2 = [] ∧
    cfg' = { types := ((renamePass R (initState cfg)).1.types).map
               (fun p => (p.1, rewriteTypeInfo ((renamePass R (initState cfg)).1.lookup) p.2))
             schema := (renamePass R (initState cfg)).1.schema } := by
  by_cases he : ((renamePass R (initState cfg)).2) = []
  · rw [transform_of_errs_nil he] at h
    exact ⟨he, (Valid.succeed.inj h).symm⟩
  · rw [transform_of_errs_ne he] at h
    exact Valid.noConfusion h

end TransformLemmas

/-! Further helpers shared by the claim theorems. -/

section MoreHelpers

theorem containsKey_of_getEntry {α : Type} {l : List (String × α)} {k : String}
    {v : α} (h : getEntry l k = some v) : containsKey l k = true := by
  rw [containsKey_iff]
  by_contra hh
  rw [← getEntry_eq_none_iff, h] at hh
  cases hh

theorem rewriteRef_nil (s : String) : rewriteRef [] s = s := rfl

theorem rewriteField_nil (f : FieldInfo) : rewriteField [] f = f := by
  cases f with
  | mk t args =>
    unfold rewriteField
    congr 1
    exact List.map_id' args

theorem rewriteTypeInfo_nil (t : TypeInfo) : rewriteTypeInfo [] t = t := by
  cases t with
  | mk fields =>
    unfold rewriteTypeInfo
    congr 1
    have : ∀ p : String × FieldInfo,
        (p.1, rewriteField [] p.2) = p := by
      intro p
      rw [rewriteField_nil]
    calc fields.map (fun p => (p.1, rewriteField [] p.2))
        = fields.map id := List.map_congr_left (fun p _ => this p)
      _ = fields := List.map_id fields

theorem keysOf_map_rewrite (L : List (String × TypeInfo))
    (lk : List (String × String)) :
    keysOf (L.map (fun p => (p.1, rewriteTypeInfo lk p.2))) = keysOf L := by
  unfold keysOf
  rw [List.map_map]
  rfl

theorem getEntry_map_rewrite (L : List (String × TypeInfo))
    (lk : List (String × String)) (k : String) :
    getEntry (L.map (fun p => (p.1, rewriteTypeInfo lk p.2))) k =
      (getEntry L k).map (rewriteTypeInfo lk) := by
  induction L with
  | nil => rfl
  | cons p rest ih =>
    by_cases hp : p.1 = k
    · rw [List.map_cons, getEntry, getEntry]
      dsimp only
      rw [if_pos hp, if_pos hp]
      rfl
    · rw [List.map_cons, getEntry, getEntry]
      dsimp only
      rw [if_neg hp, if_neg hp, ih]

theorem scrubField_rewriteField (lk : List (String × String)) (f : FieldInfo) :
    scrubField (rewriteField lk f) = scrubField f := by
  cases f with
  | mk t args =>
    unfold scrubField rewriteField
    congr 1
    rw [List.map_map]
    rfl

theorem scrubTypeInfo_rewriteTypeInfo (lk : List (String × String))
    (t : TypeInfo) : scrubTypeInfo (rewriteTypeInfo lk t) = scrubTypeInfo t := by
  cases t with
  | mk fields =>
    unfold scrubTypeInfo rewriteTypeInfo
    congr 1
    rw [List.map_map]
    exact List.map_congr_left (fun p _ => by
      dsimp only [Function.comp]
      rw [scrubField_rewriteField])

theorem renamePass_success_lookup_vals (R : List (String × String))
    (st : RenameState)
    (hT : (keysOf st.types).Nodup)
    (hR : (R.map Prod.fst).Nodup)
    (hL : ∀ q ∈ R, q.1 ∉ keysOf st.lookup)
    (hE : (renamePass R st).2 = []) :
    (renamePass R st).1.lookup = st.lookup ++ R ∧
    (∀ v, v ∈ valsOf (renamePass R st).1.types → v ∈ valsOf st.types) ∧
    (keysOf (renamePass R st).1.types).Nodup := by
  induction R generalizing st with
  | nil =>
    rw [renamePass_nil]
    exact ⟨by simp, fun v hv => hv, hT⟩
  | cons pair rest ih =>
    rw [renamePass_cons] at hE ⊢
    dsimp only at hE ⊢
    rcases List.append_eq_nil.mp hE with ⟨h1, h2⟩
    rw [List.map_cons, List.nodup_cons] at hR
    have hc : containsKey st.types pair.1 = true := by
      cases hcc : containsKey st.types pair.1 with
      | true => rfl
      | false =>
        rw [renameStep_of_missing hcc] at h1
        simp at h1
    rcases renameStep_of_containsKey hc with ⟨info, hinfo, hstep⟩
    rw [hstep] at h2 ⊢
    dsimp only at h2 ⊢
    have hT1 : (keysOf (insertEntry (swapRemove st.types pair.1) pair.2 info)).Nodup :=
      keysOf_insertEntry_nodup (keysOf_swapRemove_nodup hT)
    have hLpair : containsKey st.lookup pair.1 = false := by
      rw [containsKey_eq_false_iff]
      exact hL pair (List.mem_cons_self _ _)
    have hlook : insertEntry st.lookup pair.1 pair.2 = st.lookup ++ [pair] := by
      rw [insertEntry_of_not_containsKey _ hLpair]
    have hL1 : ∀ q ∈ rest, q.1 ∉ keysOf (insertEntry st.lookup pair.1 pair.2) := by
      intro q hq
      rw [hlook, keysOf_append, keysOf_cons, keysOf_nil, List.mem_append]
      rintro (hh | hh)
      · exact hL q (List.mem_cons_of_mem _ hq) hh
      · rcases List.mem_cons.mp hh with hh | hh
        · exact hR.1 (hh ▸ List.mem_map_of_mem Prod.fst hq)
        · simp at hh
    rcases ih _ hT1 hR.2 hL1 h2 with ⟨ihL, ihV, ihN⟩
    refine ⟨?_, ?_, ihN⟩
    · rw [ihL, hlook, List.append_assoc, List.singleton_append]
    · intro v hv
      rcases valsOf_insertEntry_subset (ihV v hv) with hh | hh
      · exact valsOf_swapRemove_subset hh
      · exact hh ▸ mem_valsOf_of_mem (mem_of_getEntry hinfo)

theorem rewriteRef_cons (p : String × String) (rest : List (String × String))
    (s : String) :
    rewriteRef (p :: rest) s = if p.1 = s then p.2 else rewriteRef rest s := by
  unfold rewriteRef
  rw [getEntry]
  by_cases h : p.1 = s
  · rw [if_pos h, if_pos h]
  · rw [if_neg h, if_neg h]

theorem rewriteRef_of_not_mem {R : List (String × String)} {s : String}
    (h : s ∉ R.map Prod.fst) : rewriteRef R s = s := by
  unfold rewriteRef
  rw [(getEntry_eq_none_iff R s).mpr h]

theorem rewriteRef_of_mem {R : List (String × String)} {s n : String}
    (hR : (R.map Prod.fst).Nodup) (h : (s, n) ∈ R) : rewriteRef R s = n := by
  unfold rewriteRef
  rw [getEntry_of_mem hR h]

theorem renamePass_roots_exact (R : List (String × String)) (st : RenameState)
    (hR : (R.map Prod.fst).Nodup)
    (hC : R.Pairwise (fun p q => p.2 ≠ q.1))
    (hE : (renamePass R st).2 = []) :
    (∀ s, st.schema.query = some s →
      (renamePass R st).1.schema.query = some (rewriteRef R s)) ∧
    (st.schema.query = none → (renamePass R st).1.schema.query = none) ∧
    (st.schema.mutation = none → (renamePass R st).1.schema.mutation = none) ∧
    (∀ s, st.schema.mutation = some s → st.schema.query = some s →
      (renamePass R st).1.schema.mutation = some s) ∧
    (∀ s, st.schema.mutation = some s → st.schema.query ≠ some s →
      (renamePass R st).1.schema.mutation = some (rewriteRef R s)) := by
  induction R generalizing st with
  | nil =>
    rw [renamePass_nil]
    exact ⟨fun s h => by rw [h]; exact rfl, fun h => h, fun h => h,
      fun s h _ => h, fun s h _ => by rw [h]; exact rfl⟩
  | cons pair rest ih =>
    rw [renamePass_cons] at hE ⊢
    dsimp only at hE ⊢
    rcases List.append_eq_nil.mp hE with ⟨h1, h2⟩
    rw [List.map_cons, List.nodup_cons] at hR
    rw [List.pairwise_cons] at hC
    have hc : containsKey st.types pair.1 = true := by
      cases hcc : containsKey st.types pair.1 with
      | true => rfl
      | false =>
        rw [renameStep_of_missing hcc] at h1
        simp at h1
    rcases renameStep_of_containsKey hc with ⟨info, hinfo, hstep⟩
    rw [hstep] at h2 ⊢
    dsimp only at h2 ⊢
    have hn_olds : pair.2 ∉ rest.map Prod.fst := by
      intro hh
      rcases List.mem_map.mp hh with ⟨q, hq, hqk⟩
      exact hC.1 q hq hqk.symm
    have hrewn : rewriteRef rest pair.2 = pair.2 := rewriteRef_of_not_mem hn_olds
    have hrewo : rewriteRef rest pair.1 = pair.1 := rewriteRef_of_not_mem hR.1
    by_cases cq : st.schema.query = some pair.1
    · rw [if_pos cq] at h2 ⊢
      rcases ih _ hR.2 hC.2 h2 with ⟨iA, iB, iC, iD, iE⟩
      dsimp only at iA iB iC iD iE
      refine ⟨?_, ?_, ?_, ?_, ?_⟩
      · intro s hs
        have hso : s = pair.1 := Option.some.inj (hs ▸ cq)
        subst hso
        rw [rewriteRef_cons, if_pos rfl]
        rw [iA pair.2 rfl, hrewn]
      · intro h
        rw [h] at cq
        exact Option.noConfusion cq
      · intro h
        exact iC h
      · intro s hm hq
        have hso : s = pair.1 := Option.some.inj (hq ▸ cq)
        subst hso
        by_cases hsp : pair.2 = pair.1
        · exact iD pair.1 hm (by rw [hsp])
        · have := iE pair.1 hm (fun hh => hsp (Option.some.inj hh))
          rw [hrewo] at this
          exact this
      · intro s hm hq
        have hso : pair.1 ≠ s := fun hh => hq (hh ▸ cq)
        rw [rewriteRef_cons, if_neg hso]
        by_cases hsp : pair.2 = s
        · have := iD s hm (by rw [hsp])
          rw [this]
          have hsrest : rewriteRef rest s = s := by
            rw [← hsp]
            exact hrewn
          rw [hsrest]
        · have := iE s hm (fun hh => hsp (Option.some.inj hh))
          exact this
    · rw [if_neg cq] at h2 ⊢
      by_cases cm : st.schema.mutation = some pair.1
      · rw [if_pos cm] at h2 ⊢
        rcases ih _ hR.2 hC.2 h2 with ⟨iA, iB, iC, iD, iE⟩
        dsimp only at iA iB iC iD iE
        refine ⟨?_, ?_, ?_, ?_, ?_⟩
        · intro s hs
          have hso : pair.1 ≠ s := fun hh => cq (by rw [hh, hs])
          rw [rewriteRef_cons, if_neg hso]
          exact iA s hs
        · intro h
          exact iB h
        · intro h
          rw [h] at cm
          exact Option.noConfusion cm
        · intro s hm hq
          have hso : s = pair.1 := Option.some.inj (hm ▸ cm)
          subst hso
          exact absurd hq cq
        · intro s hm hq
          have hso : s = pair.1 := Option.some.inj (hm ▸ cm)
          subst hso
          rw [rewriteRef_cons, if_pos rfl]
          by_cases hQn : st.schema.query = some pair.2
          · exact iD pair.2 rfl hQn
          · have := iE pair.2 rfl hQn
            rw [hrewn] at this
            exact this
      · rw [if_neg cm] at h2 ⊢
        rcases ih _ hR.2 hC.2 h2 with ⟨iA, iB, iC, iD, iE⟩
        refine ⟨?_, ?_, ?_, ?_, ?_⟩
        · intro s hs
          have hso : pair.1 ≠ s := fun hh => cq (by rw [hh, hs])
          rw [rewriteRef_cons, if_neg hso]
          exact iA s hs
        · intro h
          exact iB h
        · intro h
          exact iC h
        · intro s hm hq
          exact iD s hm hq
        · intro s hm hq
          have hso : pair.1 ≠ s := fun hh => cm (by rw [hh, hm])
          rw [rewriteRef_cons, if_neg hso]
          exact iE s hm hq

end MoreHelpers

/-! The claims. -/

/-- C9: for every configuration, applying the transform with an empty
rename mapping succeeds and returns the configuration unchanged — same
types in the same order with the same bodies, and the same schema roots. -/
theorem transform_empty_mapping_id (cfg : Config) :
    transform [] cfg = Valid.succeed cfg := by
  have h : (renamePass [] (initState cfg)).2 = [] := rfl
  rw [transform_of_errs_nil h]
  congr 1
  cases cfg with
  | mk types schema =>
    congr 1
    calc types.map (fun p => (p.1, rewriteTypeInfo [] p.2))
        = types.map id :=
          List.map_congr_left (fun p _ => by rw [rewriteTypeInfo_nil, id])
      _ = types := List.map_id types

/-- C4 counterexample: the claim says the schema-root rewrite covers the
subscription root, but renaming `S` to `T` in a configuration whose
`schema.subscription` is `S` succeeds and leaves the subscription root
equal to `S`, not `T`. -/
theorem transform_sub_unchanged_cex :
    transform [("S", "T")] cfgSub = Valid.succeed cfgSubOut ∧
    cfgSubOut.schema.subscription = some "S" ∧
    cfgSubOut.schema.subscription ≠ some "T" := by
  refine ⟨by decide, rfl, by decide⟩

/-- C4 (amended): the transform rewrites the query and mutation schema
roots only; the subscription root is never examined — every successful
transform returns `schema.subscription` unchanged, even when it names a
renamed type. -/
theorem transform_sub_unchanged (R : List (String × String)) (cfg cfg' : Config)
    (h : transform R cfg = Valid.succeed cfg') :
    cfg'.schema.subscription = cfg.schema.subscription := by
  rcases transform_succeed_inv h with ⟨hE, rfl⟩
  exact renamePass_sub R (initState cfg)

/-- Witness for C4 at a concrete input: renaming the type `S` (which the
subscription root names) leaves the subscription root untouched. -/
theorem transform_sub_unchanged_witness :
    cfgSubOut.schema.subscription = cfgSub.schema.subscription :=
  transform_sub_unchanged [("S", "T")] cfgSub cfgSubOut (by decide)

/-- C6 counterexample: the claim says a query root equal to a renamed
old-name is updated to that pair's new name.  With the chained mapping
`A → B, B → C` and `schema.query = A`, the pair `A → B` renames `A`, yet the
returned query root is `C`, not `B`: the root is updated again by the later
pair whose old-name matches its new value. -/
theorem transform_root_update_cex :
    (cfgChainQ.schema.query = some "A" ∧
      ("A", "B") ∈ ([("A", "B"), ("B", "C")] : List (String × String))) ∧
    transform [("A", "B"), ("B", "C")] cfgChainQ = Valid.succeed cfgChainQOut ∧
    cfgChainQOut.schema.query = some "C" ∧
    cfgChainQOut.schema.query ≠ some "B" := by
  refine ⟨⟨rfl, by decide⟩, by decide, rfl, by decide⟩

/-- C6 (amended): for every configuration and rename mapping with no
chained renames (no pair's new-name is a later pair's old-name) for which
the transform succeeds: a query root equal to a pair's old-name ends at
that pair's new name; a mutation root equal to a pair's old-name ends at
that pair's new name provided the query root is not that same name; a root
equal to a name not in the rename set is unchanged; and when the query and
mutation roots both equal the same renamed old-name, only the query root is
updated — the mutation root is returned unchanged (the else-if
exclusivity). -/
theorem transform_root_update (cfg cfg' : Config) (R : List (String × String))
    (hR : (R.map Prod.fst).Nodup)
    (hC : R.Pairwise (fun p q => p.2 ≠ q.1))
    (hS : transform R cfg = Valid.succeed cfg') :
    (∀ q n, cfg.schema.query = some q → (q, n) ∈ R →
      cfg'.schema.query = some n) ∧
    (∀ q, cfg.schema.query = some q → q ∉ R.map Prod.fst →
      cfg'.schema.query = some q) ∧
    (∀ m n, cfg.schema.mutation = some m → (m, n) ∈ R →
      cfg.schema.query ≠ some m → cfg'.schema.mutation = some n) ∧
    (∀ m, cfg.schema.mutation = some m → m ∉ R.map Prod.fst →
      cfg'.schema.mutation = some m) ∧
    (∀ m n, cfg.schema.mutation = some m → (m, n) ∈ R →
      cfg.schema.query = some m →
      cfg'.schema.query = some n ∧ cfg'.schema.mutation = some m) := by
  rcases transform_succeed_inv hS with ⟨hE, rfl⟩
  rcases renamePass_roots_exact R (initState cfg) hR hC hE with ⟨iA, _, _, iD, iE⟩
  refine ⟨?_, ?_, ?_, ?_, ?_⟩
  · intro q n hq hmem
    dsimp only
    rw [iA q hq, rewriteRef_of_mem hR hmem]
  · intro q hq hq2
    dsimp only
    rw [iA q hq, rewriteRef_of_not_mem hq2]
  · intro m n hm hmem hqm
    dsimp only
    rw [iE m hm hqm, rewriteRef_of_mem hR hmem]
  · intro m hm hm2
    dsimp only
    by_cases hqq : cfg.schema.query = some m
    · exact iD m hm hqq
    · rw [iE m hm hqq, rewriteRef_of_not_mem hm2]
  · intro m n hm hmem hqm
    dsimp only
    exact ⟨by rw [iA m hqm, rewriteRef_of_mem hR hmem], iD m hm hqm⟩

/-- Witness for C6 at a concrete input where the query and mutation roots
both equal the renamed old-name: the query root is updated and the
mutation root is left equal to the old name (else-if exclusivity). -/
theorem transform_root_update_witness :
    cfgRootsOut.schema.query = some "B" ∧
    cfgRootsOut.schema.mutation = some "A" :=
  (transform_root_update cfgRoots cfgRootsOut [("A", "B")]
    (by decide) (by decide) (by decide)).2.2.2.2 "A" "B" rfl (by decide) rfl


/-- C1 counterexample: the claim says the transform fails exactly when some
pair's old-name is not a key of `types`.  With the chained mapping
`A → B, B → C` on a configuration whose only type is `A`, the old-name `B`
is not a key of `types`, yet the transform succeeds: the pair `A → B` is
processed first and inserts the key `B`, which the existence check for the
second pair then finds. -/
theorem rename_missing_types_errors_cex :
    ("B" ∉ keysOf cfgChainA.types ∧
      "B" ∈ ([("A", "B"), ("B", "C")] : List (String × String)).map Prod.fst) ∧
    transform [("A", "B"), ("B", "C")] cfgChainA = Valid.succeed cfgChainAOut := by
  refine ⟨⟨by decide, by decide⟩, by decide⟩

/-- C1 (amended): provided no pair's new-name is the old-name of a later
pair (so the existence check against the mutating `types` agrees with the
input `types`), the transform fails exactly when at least one pair's
old-name is not a key of the input `types`, and on failure the error list
has exactly one entry per missing old-name, in the mapping's stored order,
each exactly the string produced by `format!` in the source, with no entry
for pairs whose old-name exists. -/
theorem rename_missing_types_errors (cfg : Config) (R : List (String × String))
    (hT : (keysOf cfg.types).Nodup)
    (hR : (R.map Prod.fst).Nodup)
    (hC : R.Pairwise (fun p q => p.2 ≠ q.1)) :
    ((∀ p ∈ R, p.1 ∈ keysOf cfg.types) →
      ∃ c, transform R cfg = Valid.succeed c) ∧
    ((∃ p ∈ R, p.1 ∉ keysOf cfg.types) →
      transform R cfg =
        Valid.failure ((R.filter (fun p => !(containsKey cfg.types p.1))).map
          (fun p => "Type '" ++ p.1 ++ "' not found in configuration."))) := by
  have herrs := renamePass_errors R (initState cfg) hT hR hC
  constructor
  · intro hall
    have h0 : (renamePass R (initState cfg)).2 = [] := by
      rw [herrs, List.map_eq_nil_iff, List.filter_eq_nil_iff]
      intro p hp
      simp only [Bool.not_eq_true', Bool.not_eq_true]
      rw [containsKey_eq_false_iff]
      intro hh
      exact hh (hall p hp)
    exact ⟨_, transform_of_errs_nil h0⟩
  · rintro ⟨p, hp, hpk⟩
    have h0 : (renamePass R (initState cfg)).2 ≠ [] := by
      rw [herrs]
      intro hh
      rw [List.map_eq_nil_iff, List.filter_eq_nil_iff] at hh
      refine hh p hp ?_
      simp only [Bool.not_eq_true']
      rw [containsKey_eq_false_iff]
      exact hpk
    rw [transform_of_errs_ne h0, herrs]
    rfl

/-- Witness for C1 at a concrete input: renaming `A → B` (present) and
`C → D` (absent) fails with exactly the one error for `C`. -/
theorem rename_missing_types_errors_witness :
    transform [("A", "B"), ("C", "D")] cfgW1 =
      Valid.failure ["Type 'C' not found in configuration."] := by
  have h := (rename_missing_types_errors cfgW1 [("A", "B"), ("C", "D")]
    (by decide) (by decide) (by decide)).2 ⟨("C", "D"), by decide, by decide⟩
  rw [h]
  rfl

/-- C7 counterexample: the claim says any mapping containing an old-name
absent from `types` makes the transform fail; the chained mapping
`X → Y, Y → Z` on a configuration whose only type is `X` contains the
absent old-name `Y`, yet the transform returns a success, not a failure. -/
theorem transform_failure_no_config_cex :
    ("Y" ∉ keysOf cfgChainX.types ∧
      "Y" ∈ ([("X", "Y"), ("Y", "Z")] : List (String × String)).map Prod.fst) ∧
    transform [("X", "Y"), ("Y", "Z")] cfgChainX = Valid.succeed cfgChainXOut := by
  refine ⟨⟨by decide, by decide⟩, by decide⟩

/-- C7 (amended): provided no pair's new-name is the old-name of a later
pair, a mapping containing at least one old-name absent from `types` makes
the transform return a failure carrying only a nonempty error list — in
particular no configuration value accompanies the failure, so no partially
rewritten configuration is observable by the caller. -/
theorem transform_failure_no_config (cfg : Config) (R : List (String × String))
    (hT : (keysOf cfg.types).Nodup)
    (hR : (R.map Prod.fst).Nodup)
    (hC : R.Pairwise (fun p q => p.2 ≠ q.1))
    (hMiss : ∃ p ∈ R, p.1 ∉ keysOf cfg.types) :
    ∃ errs, transform R cfg = Valid.failure errs ∧ errs ≠ [] ∧
      ∀ c : Config, transform R cfg ≠ Valid.succeed c := by
  have herrs := renamePass_errors R (initState cfg) hT hR hC
  rcases hMiss with ⟨p, hp, hpk⟩
  have h0 : (renamePass R (initState cfg)).2 ≠ [] := by
    rw [herrs]
    intro hh
    rw [List.map_eq_nil_iff, List.filter_eq_nil_iff] at hh
    refine hh p hp ?_
    simp only [Bool.not_eq_true']
    rw [containsKey_eq_false_iff]
    exact hpk
  refine ⟨(renamePass R (initState cfg)).2, transform_of_errs_ne h0, h0, ?_⟩
  intro c hcontra
  rw [transform_of_errs_ne h0] at hcontra
  exact Valid.noConfusion hcontra

/-- Witness for C7 at a concrete input: the mapping `A → B, C → D` with `C`
absent yields a failure with a nonempty error list and no success value. -/
theorem transform_failure_no_config_witness :
    ∃ errs, transform [("A", "B"), ("C", "D")] cfgW7 = Valid.failure errs ∧
      errs ≠ [] ∧
      ∀ c : Config, transform [("A", "B"), ("C", "D")] cfgW7 ≠ Valid.succeed c :=
  transform_failure_no_config cfgW7 [("A", "B"), ("C", "D")]
    (by decide) (by decide) (by decide) ⟨("C", "D"), by decide, by decide⟩

/-- C2 counterexample: the claim says a renamed entry keeps its original
position.  Renaming `A` to `C` in the two-type configuration `[A, B]`
instead produces the key order `[B, C]` — `remove` is indexmap's
`swap_remove`, which moves the last entry `B` into `A`'s slot, and the
insert appends `C` at the end — not the claimed `[C, B]`. -/
theorem transform_rename_order_cex :
    transform [("A", "C")] cfgPair = Valid.succeed cfgPairOut ∧
    keysOf cfgPairOut.types = ["B", "C"] ∧
    keysOf cfgPairOut.types ≠ ["C", "B"] := by
  refine ⟨by decide, by decide, by decide⟩

/-- C2 (amended): for a single rename pair `(o, n)` with `o` present and
`n` fresh, the returned key order is not position-preserving: writing the
input `types` as `pre ++ (o, body) :: post`, the old entry's slot is filled
by the previously-last entry, the former last slot disappears, and the new
name `n` is appended at the end; the other entries keep their relative
order.  (With `post` empty the old entry was last, so the keys are just
`keysOf pre ++ [n]`.) -/
theorem transform_rename_order (cfg : Config) (o n : String) (info : TypeInfo)
    (pre post : List (String × TypeInfo))
    (hT : (keysOf cfg.types).Nodup)
    (hsplit : cfg.types = pre ++ (o, info) :: post)
    (hn : n ∉ keysOf cfg.types) :
    ∃ cfg', transform [(o, n)] cfg = Valid.succeed cfg' ∧
      keysOf cfg'.types =
        (keysOf pre ++ (match post.getLast? with
                        | none => []
                        | some last => last.1 :: keysOf post.dropLast)) ++ [n] := by
  have hpre : o ∉ keysOf pre := by
    have h1 : (keysOf pre ++ o :: keysOf post).Nodup := by
      have := hsplit ▸ hT
      rwa [keysOf_append, keysOf_cons] at this
    have := List.nodup_middle.mp h1
    rw [List.nodup_cons, List.mem_append] at this
    exact fun hh => this.1 (Or.inl hh)
  have hget : getEntry cfg.types o = some info := by
    rw [hsplit, getEntry_append, if_neg hpre, getEntry, if_pos rfl]
  have hc : containsKey (initState cfg).types (o, n).1 = true :=
    containsKey_of_getEntry hget
  rcases renameStep_of_containsKey hc with ⟨info', hinfo', hstep⟩
  have hE : (renamePass [(o, n)] (initState cfg)).2 = [] := by
    rw [renamePass_cons, hstep]
    rfl
  refine ⟨_, transform_of_errs_nil hE, ?_⟩
  dsimp only
  rw [keysOf_map_rewrite]
  have htypes : (renamePass [(o, n)] (initState cfg)).1.types =
      (renameStep (initState cfg) (o, n)).1.types := rfl
  rw [hstep] at htypes
  dsimp only at htypes
  rw [htypes]
  have hswap : swapRemove (initState cfg).types (o, n).1 = pre ++ swapTail post := by
    show swapRemove cfg.types o = _
    rw [hsplit]
    exact swapRemove_eq_of_split hpre
  rw [hswap]
  have hnotin : containsKey (pre ++ swapTail post) (o, n).2 = false := by
    show containsKey _ n = false
    rw [containsKey_eq_false_iff]
    intro hh
    apply hn
    rw [hsplit, keysOf_append, keysOf_cons]
    rw [keysOf_append] at hh
    rcases List.mem_append.mp hh with hh | hh
    · exact List.mem_append.mpr (Or.inl hh)
    · refine List.mem_append.mpr (Or.inr ?_)
      unfold swapTail at hh
      cases hl : post.getLast? with
      | none =>
        rw [hl] at hh
        simp at hh
      | some last =>
        rw [hl] at hh
        rcases List.mem_cons.mp hh with hh | hh
        · have hh' : n = last.1 := hh
          rw [hh']
          refine List.mem_cons_of_mem _ ?_
          exact mem_keysOf_of_mem (List.mem_of_mem_getLast? (by rw [hl]; rfl))
        · rcases List.mem_map.mp hh with ⟨q, hq, hqk⟩
          have hqk' : q.1 = n := hqk
          refine List.mem_cons_of_mem _ ?_
          exact hqk' ▸ mem_keysOf_of_mem ((List.dropLast_sublist post).subset hq)
  rw [insertEntry_of_not_containsKey _ hnotin]
  rw [keysOf_append, keysOf_append, keysOf_cons, keysOf_nil]
  congr 1
  congr 1
  unfold swapTail
  cases hl : post.getLast? with
  | none => rfl
  | some last => rfl

/-- Witness for C2 at a concrete input: renaming `A` to `D` in `[A, B, C]`
yields the key order `[C, B, D]` (the last entry `C` fills `A`'s slot and
`D` is appended). -/
theorem transform_rename_order_witness :
    ∃ cfg', transform [("A", "D")] cfgTriple = Valid.succeed cfg' ∧
      keysOf cfg'.types = ["C", "B", "D"] := by
  rcases transform_rename_order cfgTriple "A" "D" tEmpty []
    [("B", tEmpty), ("C", tEmpty)] (by decide) (by decide) (by decide)
    with ⟨cfg', hs, hk⟩
  refine ⟨cfg', hs, ?_⟩
  rw [hk]
  rfl

/-- C8 counterexample: the claim says a pair whose new-name equals the key
of a different, existing type overwrites it so that only one body survives,
'whether that type is itself renamed or not'.  With types `A` and `B` and
the mapping `B → C, A → B`, the pair `A → B` targets the existing type `B`,
but `B` has already been renamed away when that insert runs, so nothing is
overwritten: both bodies survive, under the keys `C` and `B`, and the type
count stays 2. -/
theorem transform_collision_overwrite_cex :
    (("A", "B") ∈ ([("B", "C"), ("A", "B")] : List (String × String)) ∧
      "B" ∈ keysOf cfgCollide.types ∧ ("A" : String) ≠ "B") ∧
    transform [("B", "C"), ("A", "B")] cfgCollide =
      Valid.succeed cfgCollideSwapOut ∧
    cfgCollideSwapOut.types.length = 2 ∧
    getEntry cfgCollideSwapOut.types "C" = some tEmpty ∧
    getEntry cfgCollideSwapOut.types "B" =
      some (rewriteTypeInfo [("B", "C"), ("A", "B")] tSelfRef) := by
  refine ⟨⟨by decide, by decide, by decide⟩, by decide, rfl, by decide, by decide⟩

/-- C8 (amended): overwriting happens exactly when the colliding name is
still a key at the moment the insert runs.  First part: for a pair `(o, n)`
whose new name `n` is the key of a different existing type not itself
renamed, the transform succeeds, `n` remains a key exactly once, its
surviving body is the renamed type's (rewritten by phase 2), and the key
set is the input's minus `o`.  Second part: when two pairs
`(o₁, n), (o₂, n)` share the fresh new name `n`, the transform succeeds,
only the later pair's body survives under `n` (rewritten by phase 2), and
both old names are in the rename lookup, so references to either are
rewritten to `n`.  Third part: when the colliding type was already renamed
away by an earlier pair — mapping `b → c, a → b` with `a`, `b` present and
`c` fresh — nothing is overwritten: both bodies survive, under the keys `b`
and `c`, each appearing exactly once. -/
theorem transform_collision_overwrite :
    (∀ (cfg : Config) (o n : String) (info : TypeInfo),
      (keysOf cfg.types).Nodup →
      getEntry cfg.types o = some info →
      n ∈ keysOf cfg.types → n ≠ o →
      ∃ cfg', transform [(o, n)] cfg = Valid.succeed cfg' ∧
        (keysOf cfg'.types).count n = 1 ∧
        getEntry cfg'.types n = some (rewriteTypeInfo [(o, n)] info) ∧
        (∀ m, m ∈ keysOf cfg'.types ↔ m ∈ keysOf cfg.types ∧ m ≠ o)) ∧
    (∀ (cfg : Config) (o₁ o₂ n : String) (i1 i2 : TypeInfo),
      (keysOf cfg.types).Nodup →
      getEntry cfg.types o₁ = some i1 →
      getEntry cfg.types o₂ = some i2 →
      o₁ ≠ o₂ → n ∉ keysOf cfg.types → n ≠ o₁ → n ≠ o₂ →
      ∃ cfg', transform [(o₁, n), (o₂, n)] cfg = Valid.succeed cfg' ∧
        (keysOf cfg'.types).count n = 1 ∧
        getEntry cfg'.types n =
          some (rewriteTypeInfo [(o₁, n), (o₂, n)] i2) ∧
        rewriteRef [(o₁, n), (o₂, n)] o₁ = n ∧
        rewriteRef [(o₁, n), (o₂, n)] o₂ = n) ∧
    (∀ (cfg : Config) (a b c : String) (ia ib : TypeInfo),
      (keysOf cfg.types).Nodup →
      getEntry cfg.types a = some ia →
      getEntry cfg.types b = some ib →
      a ≠ b → c ∉ keysOf cfg.types → c ≠ a → c ≠ b →
      ∃ cfg', transform [(b, c), (a, b)] cfg = Valid.succeed cfg' ∧
        getEntry cfg'.types b = some (rewriteTypeInfo [(b, c), (a, b)] ia) ∧
        getEntry cfg'.types c = some (rewriteTypeInfo [(b, c), (a, b)] ib) ∧
        (keysOf cfg'.types).count b = 1 ∧
        (keysOf cfg'.types).count c = 1) := by
  refine ⟨?_, ?_, ?_⟩
  · intro cfg o n info hT hget hmem hne
    have hc : containsKey (initState cfg).types (o, n).1 = true :=
      containsKey_of_getEntry hget
    rcases renameStep_of_containsKey hc with ⟨info0, hinfo0, hstep⟩
    have hii : info0 = info := by
      have h0 : some info0 = some info := hinfo0 ▸ hget
      exact Option.some.inj h0
    rw [hii] at hstep
    have hE : (renamePass [(o, n)] (initState cfg)).2 = [] := by
      rw [renamePass_cons, hstep]
      rfl
    refine ⟨_, transform_of_errs_nil hE, ?_⟩
    have htypes : (renamePass [(o, n)] (initState cfg)).1.types =
        insertEntry (swapRemove cfg.types o) n info := by
      have h0 : (renamePass [(o, n)] (initState cfg)).1.types =
          (renameStep (initState cfg) (o, n)).1.types := rfl
      rw [hstep] at h0
      exact h0
    have hlook : (renamePass [(o, n)] (initState cfg)).1.lookup = [(o, n)] := by
      have h0 : (renamePass [(o, n)] (initState cfg)).1.lookup =
          (renameStep (initState cfg) (o, n)).1.lookup := rfl
      rw [hstep] at h0
      exact h0
    have hT1 : (keysOf (insertEntry (swapRemove cfg.types o) n info)).Nodup :=
      keysOf_insertEntry_nodup (keysOf_swapRemove_nodup hT)
    have hkeys1 := mem_keysOf_stepTypes (n := n) hT hget
    dsimp only
    rw [htypes, hlook]
    refine ⟨?_, ?_, ?_⟩
    · rw [keysOf_map_rewrite]
      refine List.count_eq_one_of_mem hT1 ?_
      rw [hkeys1 n]
      exact Or.inl rfl
    · rw [getEntry_map_rewrite, getEntry_insertEntry_self]
      rfl
    · intro m
      rw [keysOf_map_rewrite, hkeys1 m]
      constructor
      · rintro (rfl | hh)
        · exact ⟨hmem, hne⟩
        · exact hh
      · exact Or.inr
  · intro cfg o₁ o₂ n i1 i2 hT hget1 hget2 ho hn hn1 hn2
    have hc1 : containsKey (initState cfg).types (o₁, n).1 = true :=
      containsKey_of_getEntry hget1
    rcases renameStep_of_containsKey hc1 with ⟨j1, hj1, hstep1⟩
    have hji : j1 = i1 := by
      have h0 : some j1 = some i1 := hj1 ▸ hget1
      exact Option.some.inj h0
    rw [hji] at hstep1
    have hT1 : (keysOf (insertEntry (swapRemove cfg.types o₁) n i1)).Nodup :=
      keysOf_insertEntry_nodup (keysOf_swapRemove_nodup hT)
    have hget2a : getEntry (insertEntry (swapRemove cfg.types o₁) n i1) o₂ =
        some i2 := by
      rw [getEntry_insertEntry_ne _ (fun hh => hn2 hh.symm)]
      rw [getEntry_swapRemove_ne hT hget1 (fun hh => ho hh.symm)]
      exact hget2
    have hget2b : getEntry ((renameStep (initState cfg) (o₁, n)).1).types (o₂, n).1 =
        some i2 := by
      rw [hstep1]
      exact hget2a
    have hc2 : containsKey ((renameStep (initState cfg) (o₁, n)).1).types (o₂, n).1 = true :=
      containsKey_of_getEntry hget2b
    rcases renameStep_of_containsKey hc2 with ⟨j2, hj2, hstep2⟩
    have hj2i : j2 = i2 := by
      have h0 : some j2 = some i2 := hj2 ▸ hget2b
      exact Option.some.inj h0
    rw [hj2i] at hstep2
    have h1e : (renameStep (initState cfg) (o₁, n)).2 = [] := by
      rw [hstep1]
    have h2e : (renamePass [(o₂, n)] (renameStep (initState cfg) (o₁, n)).1).2 = [] := by
      rw [renamePass_cons, hstep2]
      rfl
    have hE : (renamePass [(o₁, n), (o₂, n)] (initState cfg)).2 = [] := by
      rw [renamePass_cons]
      dsimp only
      rw [List.append_eq_nil]
      exact ⟨h1e, h2e⟩
    refine ⟨_, transform_of_errs_nil hE, ?_⟩
    have hfin : (renamePass [(o₁, n), (o₂, n)] (initState cfg)).1 =
        (renameStep (renameStep (initState cfg) (o₁, n)).1 (o₂, n)).1 := rfl
    have htypes2 : (renamePass [(o₁, n), (o₂, n)] (initState cfg)).1.types =
        insertEntry (swapRemove ((renameStep (initState cfg) (o₁, n)).1).types (o₂, n).1)
          (o₂, n).2 i2 := by
      rw [hfin, hstep2]
    have hlook2 : (renamePass [(o₁, n), (o₂, n)] (initState cfg)).1.lookup =
        [(o₁, n), (o₂, n)] := by
      rw [hfin, hstep2]
      dsimp only
      rw [hstep1]
      dsimp only
      show insertEntry (insertEntry [] o₁ n) o₂ n = [(o₁, n), (o₂, n)]
      rw [show insertEntry ([] : List (String × String)) o₁ n = [(o₁, n)] from rfl]
      rw [insertEntry_of_not_containsKey]
      · rfl
      · rw [containsKey_eq_false_iff]
        intro hh
        rcases List.mem_cons.mp hh with hh | hh
        · exact ho hh.symm
        · simp at hh
    have hT2 : (keysOf (insertEntry
        (swapRemove ((renameStep (initState cfg) (o₁, n)).1).types (o₂, n).1)
          (o₂, n).2 i2)).Nodup := by
      refine keysOf_insertEntry_nodup (keysOf_swapRemove_nodup ?_)
      rw [hstep1]
      exact hT1
    dsimp only
    rw [htypes2, hlook2]
    refine ⟨?_, ?_, ?_, ?_⟩
    · rw [keysOf_map_rewrite]
      refine List.count_eq_one_of_mem hT2 ?_
      rw [← containsKey_iff]
      exact containsKey_of_getEntry (getEntry_insertEntry_self _ _ _)
    · rw [getEntry_map_rewrite, getEntry_insertEntry_self]
      rfl
    · unfold rewriteRef
      rw [getEntry, if_pos rfl]
    · unfold rewriteRef
      rw [getEntry, if_neg (fun hh : o₁ = o₂ => ho hh), getEntry, if_pos rfl]
  · intro cfg a b c ia ib hT hgeta hgetb hab hcfresh hca hcb
    have hc1 : containsKey (initState cfg).types ((b, c) : String × String).1 = true :=
      containsKey_of_getEntry hgetb
    rcases renameStep_of_containsKey hc1 with ⟨j1, hj1, hstep1⟩
    have hji : j1 = ib := by
      have h0 : some j1 = some ib := hj1 ▸ hgetb
      exact Option.some.inj h0
    rw [hji] at hstep1
    have hT1 : (keysOf (insertEntry (swapRemove cfg.types b) c ib)).Nodup :=
      keysOf_insertEntry_nodup (keysOf_swapRemove_nodup hT)
    have hgeta1 : getEntry (insertEntry (swapRemove cfg.types b) c ib) a = some ia := by
      rw [getEntry_insertEntry_ne _ (fun hh => hca hh.symm)]
      rw [getEntry_swapRemove_ne hT hgetb hab]
      exact hgeta
    have hga : getEntry ((renameStep (initState cfg) (b, c)).1).types a = some ia := by
      rw [hstep1]
      exact hgeta1
    have hc2 : containsKey ((renameStep (initState cfg) (b, c)).1).types
        ((a, b) : String × String).1 = true :=
      containsKey_of_getEntry hga
    rcases renameStep_of_containsKey hc2 with ⟨j2, hj2, hstep2⟩
    have hj2i : j2 = ia := by
      have h0 : some j2 = some ia := hj2 ▸ hga
      exact Option.some.inj h0
    rw [hj2i] at hstep2
    have h1e : (renameStep (initState cfg) (b, c)).2 = [] := by
      rw [hstep1]
    have h2e : (renamePass [(a, b)] (renameStep (initState cfg) (b, c)).1).2 = [] := by
      rw [renamePass_cons, hstep2]
      rfl
    have hE : (renamePass [(b, c), (a, b)] (initState cfg)).2 = [] := by
      rw [renamePass_cons]
      dsimp only
      rw [List.append_eq_nil]
      exact ⟨h1e, h2e⟩
    refine ⟨_, transform_of_errs_nil hE, ?_⟩
    have hfin : (renamePass [(b, c), (a, b)] (initState cfg)).1 =
        (renameStep (renameStep (initState cfg) (b, c)).1 (a, b)).1 := rfl
    have htypes2 : (renamePass [(b, c), (a, b)] (initState cfg)).1.types =
        insertEntry (swapRemove ((renameStep (initState cfg) (b, c)).1).types a)
          b ia := by
      rw [hfin, hstep2]
    have hlook2 : (renamePass [(b, c), (a, b)] (initState cfg)).1.lookup =
        [(b, c), (a, b)] := by
      rw [hfin, hstep2]
      dsimp only
      rw [hstep1]
      dsimp only
      show insertEntry (insertEntry [] b c) a b = [(b, c), (a, b)]
      rw [show insertEntry ([] : List (String × String)) b c = [(b, c)] from rfl]
      rw [insertEntry_of_not_containsKey]
      · rfl
      · rw [containsKey_eq_false_iff]
        intro hh
        rcases List.mem_cons.mp hh with hh | hh
        · exact hab hh
        · simp at hh
    have hT1b : (keysOf ((renameStep (initState cfg) (b, c)).1).types).Nodup := by
      rw [hstep1]
      exact hT1
    have hT2 : (keysOf (insertEntry
        (swapRemove ((renameStep (initState cfg) (b, c)).1).types a) b ia)).Nodup :=
      keysOf_insertEntry_nodup (keysOf_swapRemove_nodup hT1b)
    have hgc : getEntry (insertEntry
        (swapRemove ((renameStep (initState cfg) (b, c)).1).types a) b ia) c =
        some ib := by
      rw [getEntry_insertEntry_ne _ hcb]
      rw [getEntry_swapRemove_ne hT1b hga hca]
      rw [hstep1]
      exact getEntry_insertEntry_self _ _ _
    dsimp only
    rw [htypes2, hlook2]
    refine ⟨?_, ?_, ?_, ?_⟩
    · rw [getEntry_map_rewrite, getEntry_insertEntry_self]
      rfl
    · rw [getEntry_map_rewrite, hgc]
      rfl
    · rw [keysOf_map_rewrite]
      refine List.count_eq_one_of_mem hT2 ?_
      rw [← containsKey_iff]
      exact containsKey_of_getEntry (getEntry_insertEntry_self _ _ _)
    · rw [keysOf_map_rewrite]
      refine List.count_eq_one_of_mem hT2 ?_
      rw [← containsKey_iff]
      exact containsKey_of_getEntry hgc

/-- Witness for C8 at concrete inputs: renaming `A` onto the existing,
non-renamed key `B` leaves one `B` entry holding `A`'s (rewritten) body;
renaming both `A` and `B` to the shared fresh name `N` leaves one `N` entry
holding `B`'s body while references to both `A` and `B` rewrite to `N`; and
with the mapping `B → C, A → B` both bodies survive. -/
theorem transform_collision_overwrite_witness :
    (∃ cfg', transform [("A", "B")] cfgCollide = Valid.succeed cfg' ∧
      (keysOf cfg'.types).count "B" = 1 ∧
      getEntry cfg'.types "B" = some (rewriteTypeInfo [("A", "B")] tSelfRef) ∧
      (∀ m, m ∈ keysOf cfg'.types ↔ m ∈ keysOf cfgCollide.types ∧ m ≠ "A")) ∧
    (∃ cfg', transform [("A", "N"), ("B", "N")] cfgShared = Valid.succeed cfg' ∧
      (keysOf cfg'.types).count "N" = 1 ∧
      getEntry cfg'.types "N" = some (rewriteTypeInfo [("A", "N"), ("B", "N")] tEmpty) ∧
      rewriteRef [("A", "N"), ("B", "N")] "A" = "N" ∧
      rewriteRef [("A", "N"), ("B", "N")] "B" = "N") ∧
    (∃ cfg', transform [("B", "C"), ("A", "B")] cfgCollide = Valid.succeed cfg' ∧
      getEntry cfg'.types "B" =
        some (rewriteTypeInfo [("B", "C"), ("A", "B")] tSelfRef) ∧
      getEntry cfg'.types "C" =
        some (rewriteTypeInfo [("B", "C"), ("A", "B")] tEmpty) ∧
      (keysOf cfg'.types).count "B" = 1 ∧
      (keysOf cfg'.types).count "C" = 1) :=
  ⟨transform_collision_overwrite.1 cfgCollide "A" "B" tSelfRef
      (by decide) (by decide) (by decide) (by decide),
    transform_collision_overwrite.2.1 cfgShared "A" "B" "N" tSelfRef tEmpty
      (by decide) (by decide) (by decide) (by decide) (by decide) (by decide)
      (by decide),
    transform_collision_overwrite.2.2 cfgCollide "A" "B" "C" tSelfRef tEmpty
      (by decide) (by decide) (by decide) (by decide) (by decide) (by decide)
      (by decide)⟩

/-- C5: on success the rename lookup is exactly the stored mapping, and the
reference rewrite it induces maps each pair's old-name to that pair's
new-name and leaves every other name unchanged; every type body in the
output is some input type body with exactly that rewrite applied to every
field's and argument's `type_of`. -/
theorem transform_rewrites_references (cfg cfg' : Config)
    (R : List (String × String))
    (hT : (keysOf cfg.types).Nodup)
    (hR : (R.map Prod.fst).Nodup)
    (hS : transform R cfg = Valid.succeed cfg') :
    (∀ p ∈ R, rewriteRef R p.1 = p.2) ∧
    (∀ s, s ∉ R.map Prod.fst → rewriteRef R s = s) ∧
    (∀ q ∈ cfg'.types, ∃ info ∈ valsOf cfg.types,
      q.2 = rewriteTypeInfo R info) := by
  rcases transform_succeed_inv hS with ⟨hE, rfl⟩
  rcases renamePass_success_lookup_vals R (initState cfg) hT hR
    (fun q _ hh => by simp [initState, keysOf] at hh) hE with ⟨hL, hV, _⟩
  have hLR : (renamePass R (initState cfg)).1.lookup = R := by
    rw [hL]
    rfl
  refine ⟨?_, ?_, ?_⟩
  · intro p hp
    unfold rewriteRef
    rw [getEntry_of_mem hR (show (p.1, p.2) ∈ R from hp)]
  · intro s hs
    unfold rewriteRef
    rw [(getEntry_eq_none_iff R s).mpr hs]
  · intro q hq
    dsimp only at hq
    rcases List.mem_map.mp hq with ⟨p0, hp0, hq0⟩
    refine ⟨p0.2, hV p0.2 (mem_valsOf_of_mem hp0), ?_⟩
    rw [← hq0]
    dsimp only
    rw [hLR]

/-- Witness for C5 at a concrete input: renaming `A` to `B` in a
configuration with types `A` (self-referencing, with an argument of type
`P`) and `P`. -/
theorem transform_rewrites_references_witness :
    (∀ p ∈ ([("A", "B")] : List (String × String)), rewriteRef [("A", "B")] p.1 = p.2) ∧
    (∀ s, s ∉ ([("A", "B")] : List (String × String)).map Prod.fst →
      rewriteRef [("A", "B")] s = s) ∧
    (∀ q ∈ cfgRichOut.types, ∃ info ∈ valsOf cfgRich.types,
      q.2 = rewriteTypeInfo [("A", "B")] info) :=
  transform_rewrites_references cfgRich cfgRichOut [("A", "B")]
    (by decide) (by decide) (by decide)

/-- C10: frame condition — on success, everything other than the `types`
keys, the `type_of` strings, and the query and mutation roots is unchanged:
the subscription root is returned as it was, and every output type body is
some input type body up to the `type_of` strings (same field names in the
same order, each field with the same argument names in the same order and
all data other than `type_of` equal, as witnessed by equality after
scrubbing every `type_of`). -/
theorem transform_frame (cfg cfg' : Config) (R : List (String × String))
    (hT : (keysOf cfg.types).Nodup)
    (hR : (R.map Prod.fst).Nodup)
    (hS : transform R cfg = Valid.succeed cfg') :
    cfg'.schema.subscription = cfg.schema.subscription ∧
    ∀ q ∈ cfg'.types, ∃ info ∈ valsOf cfg.types,
      scrubTypeInfo q.2 = scrubTypeInfo info := by
  rcases transform_succeed_inv hS with ⟨hE, rfl⟩
  rcases renamePass_success_lookup_vals R (initState cfg) hT hR
    (fun q _ hh => by simp [initState, keysOf] at hh) hE with ⟨_, hV, _⟩
  constructor
  · exact renamePass_sub R (initState cfg)
  · intro q hq
    dsimp only at hq
    rcases List.mem_map.mp hq with ⟨p0, hp0, hq0⟩
    refine ⟨p0.2, hV p0.2 (mem_valsOf_of_mem hp0), ?_⟩
    rw [← hq0]
    dsimp only
    rw [scrubTypeInfo_rewriteTypeInfo]

/-- Witness for C10 at a concrete input: renaming `A` to `B` in `cfgRich`
keeps the subscription root and every body shape. -/
theorem transform_frame_witness :
    cfgRichOut.schema.subscription = cfgRich.schema.subscription ∧
    ∀ q ∈ cfgRichOut.types, ∃ info ∈ valsOf cfgRich.types,
      scrubTypeInfo q.2 = scrubTypeInfo info :=
  transform_frame cfgRich cfgRichOut [("A", "B")]
    (by decide) (by decide) (by decide)

/-- C3 counterexample: the claim asserts referential closure even for
chained renames such as `A → B` with `B → C`.  On a configuration whose
only type `A` references itself in a field and an argument (so every
reference resolves beforehand), that chained mapping succeeds, but the
references are rewritten to `B` — a single, non-transitive lookup — while
the only surviving key is `C`, so they no longer resolve. -/
theorem transform_referential_closure_cex :
    (∀ info ∈ valsOf cfgChainRef.types, ∀ f ∈ valsOf info.fields,
      f.type_of ∈ keysOf cfgChainRef.types ∧
      ∀ a ∈ valsOf f.args, a.type_of ∈ keysOf cfgChainRef.types) ∧
    transform [("A", "B"), ("B", "C")] cfgChainRef =
      Valid.succeed cfgChainRefOut ∧
    (∃ info ∈ valsOf cfgChainRefOut.types, ∃ f ∈ valsOf info.fields,
      f.type_of ∉ keysOf cfgChainRefOut.types) := by
  refine ⟨by decide, by decide, by decide⟩

/-- C3 (amended): referential closure holds provided no pair's new-name is
the old-name of a later pair (no chained renames), the subscription root
(when set) is not itself renamed, and the query and mutation roots are not
both the same renamed old-name.  Under these side conditions, in a
configuration whose `type_of` references and set schema roots all resolve
before the transform, after a successful transform every field and argument
`type_of` and every set schema root resolves to a key of the returned
`types`. -/
theorem transform_referential_closure (cfg cfg' : Config)
    (R : List (String × String))
    (hT : (keysOf cfg.types).Nodup)
    (hR : (R.map Prod.fst).Nodup)
    (hC : R.Pairwise (fun p q => p.2 ≠ q.1))
    (hRefs : ∀ info ∈ valsOf cfg.types, ∀ f ∈ valsOf info.fields,
      f.type_of ∈ keysOf cfg.types ∧
      ∀ a ∈ valsOf f.args, a.type_of ∈ keysOf cfg.types)
    (hq : ∀ s, cfg.schema.query = some s → s ∈ keysOf cfg.types)
    (hm : ∀ s, cfg.schema.mutation = some s → s ∈ keysOf cfg.types)
    (hs : ∀ s, cfg.schema.subscription = some s →
      s ∈ keysOf cfg.types ∧ s ∉ R.map Prod.fst)
    (hqm : ∀ p ∈ R, ¬(cfg.schema.query = some p.1 ∧ cfg.schema.mutation = some p.1))
    (hS : transform R cfg = Valid.succeed cfg') :
    (∀ info ∈ valsOf cfg'.types, ∀ f ∈ valsOf info.fields,
      f.type_of ∈ keysOf cfg'.types ∧
      ∀ a ∈ valsOf f.args, a.type_of ∈ keysOf cfg'.types) ∧
    (∀ s, cfg'.schema.query = some s → s ∈ keysOf cfg'.types) ∧
    (∀ s, cfg'.schema.mutation = some s → s ∈ keysOf cfg'.types) ∧
    (∀ s, cfg'.schema.subscription = some s → s ∈ keysOf cfg'.types) := by
  rcases transform_succeed_inv hS with ⟨hE, rfl⟩
  rcases renamePass_success_state R (initState cfg) hT hR hC
    (fun q _ hh => by simp [initState, keysOf] at hh) hE with ⟨hN, hL, hK, hV⟩
  have hLR : (renamePass R (initState cfg)).1.lookup = R := by
    rw [hL]
    rfl
  have hroots := renamePass_roots R (initState cfg) hT hC hq hm
    (fun p hp => hqm p hp) hE
  -- a rewritten reference resolves in the final key set
  have hres : ∀ s, s ∈ keysOf cfg.types →
      rewriteRef R s ∈ keysOf (renamePass R (initState cfg)).1.types := by
    intro s hsin
    unfold rewriteRef
    cases hg : getEntry R s with
    | some nn =>
      rw [hK]
      refine Or.inr ?_
      have : (s, nn) ∈ R := mem_of_getEntry hg
      exact List.mem_map_of_mem Prod.snd this
    | none =>
      rw [hK]
      refine Or.inl ⟨hsin, ?_⟩
      rw [getEntry_eq_none_iff] at hg
      exact hg
  have hkeys' : keysOf ((renamePass R (initState cfg)).1.types.map
      (fun p => (p.1, rewriteTypeInfo ((renamePass R (initState cfg)).1.lookup) p.2))) =
      keysOf (renamePass R (initState cfg)).1.types :=
    keysOf_map_rewrite _ _
  refine ⟨?_, ?_, ?_, ?_⟩
  · intro info hinfo f hf
    dsimp only at hinfo
    rcases List.mem_map.mp hinfo with ⟨p0, hp0, hq0⟩
    rcases List.mem_map.mp hp0 with ⟨p1, hp1, hp2⟩
    have hinfo0 : info = rewriteTypeInfo R p1.2 := by
      rw [← hq0, ← hp2]
      dsimp only
      rw [hLR]
    have hval : p1.2 ∈ valsOf cfg.types := hV p1.2 (mem_valsOf_of_mem hp1)
    subst hinfo0
    rcases List.mem_map.mp hf with ⟨pf, hpf, hf0⟩
    rcases List.mem_map.mp hpf with ⟨pf0, hpf0, hpf1⟩
    have hf1 : f = rewriteField R pf0.2 := by
      rw [← hf0, ← hpf1]
    have hfield : pf0.2 ∈ valsOf p1.2.fields := mem_valsOf_of_mem hpf0
    rcases hRefs p1.2 hval pf0.2 hfield with ⟨hft, hfa⟩
    subst hf1
    constructor
    · show rewriteRef R pf0.2.type_of ∈ _
      dsimp only
      rw [hkeys']
      exact hres pf0.2.type_of hft
    · intro a ha
      rcases List.mem_map.mp ha with ⟨pa, hpa, ha0⟩
      rcases List.mem_map.mp hpa with ⟨pa0, hpa0, hpa1⟩
      have ha1 : a = rewriteArg R pa0.2 := by
        rw [← ha0, ← hpa1]
      subst ha1
      show rewriteRef R pa0.2.type_of ∈ _
      dsimp only
      rw [hkeys']
      exact hres pa0.2.type_of (hfa pa0.2 (mem_valsOf_of_mem hpa0))
  · intro s hsq
    dsimp only at hsq ⊢
    rw [hkeys']
    exact hroots.1 s hsq
  · intro s hsm
    dsimp only at hsm ⊢
    rw [hkeys']
    exact hroots.2 s hsm
  · intro s hss
    dsimp only at hss ⊢
    rw [hkeys']
    have hsub : (renamePass R (initState cfg)).1.schema.subscription =
        cfg.schema.subscription := renamePass_sub R (initState cfg)
    rw [hsub] at hss
    rcases hs s hss with ⟨h1, h2⟩
    rw [hK]
    exact Or.inl ⟨h1, h2⟩

/-- Witness for C3 at a concrete input: renaming `A` to `B` in `cfgRich`,
whose references and roots all resolve, with no chaining, a subscription
root naming the non-renamed `P`, and distinct query and mutation roots. -/
theorem transform_referential_closure_witness :
    (∀ info ∈ valsOf cfgRichOut.types, ∀ f ∈ valsOf info.fields,
      f.type_of ∈ keysOf cfgRichOut.types ∧
      ∀ a ∈ valsOf f.args, a.type_of ∈ keysOf cfgRichOut.types) ∧
    (∀ s, cfgRichOut.schema.query = some s → s ∈ keysOf cfgRichOut.types) ∧
    (∀ s, cfgRichOut.schema.mutation = some s → s ∈ keysOf cfgRichOut.types) ∧
    (∀ s, cfgRichOut.schema.subscription = some s → s ∈ keysOf cfgRichOut.types) :=
  transform_referential_closure cfgRich cfgRichOut [("A", "B")]
    (by decide) (by decide) (by decide) (by decide) (by decide) (by decide)
    (by decide) (by decide) (by decide)

end RenameSpec
